import Mathlib

/-!
Employee Time Management System: embedding of `timeClockConcept.cpp`

The C++ program keeps a `vector<employee>` in memory, a text file
`employees.txt` with the saved employee records and a text file
`punchRecords.txt` with the punch ledger.  The embedding passes these three
pieces of state explicitly (`System`).

Conventions of the embedding:

* `int` values are `Int`, `double` values are `Rat`, `bool` is `Bool`.  The
  operations compare and copy these values and do no arithmetic on them, so no
  overflow or rounding arises.
* An operation returns `Option`: `none` stands for "no defined result",
  which is either an out-of-range subscript of the employee vector or a
  retry loop (`while (true) { cin >> x; ... continue; }`) whose input runs
  out, so that the loop never ends.
* Every `cin >> x` site of an operation is fed by its own list of extraction
  outcomes, `some v` for a successful extraction of `v` and `none` for
  `cin.fail()`.  A site outside a retry loop takes a single outcome.
* `getTime()` is a parameter `now` of the operation that calls it.
* The two loaders work on the characters of a file; `size_t` positions are
  natural numbers with sums and differences taken modulo `2^64`, and a thrown
  exception is `none`.  `ostream << double` and `std::stod` are the parameters
  `showPay` and `stod`.
* Text printed on `cout` is not part of the state and is left out.
-/

namespace TimeClock

/-! ## Data model -/

/-- The `employee` class: its seven private members. -/
structure employee where
  name : String
  employeeID : Int
  pay : Rat
  isManager : Bool
  managerPin : Int
  masterStatus : Bool
  timeStatus : Int
  deriving DecidableEq, Repr

namespace employee

/-- `void setTimeStatus(int set)`. -/
def setTimeStatus (e : employee) (set : Int) : employee :=
  { e with timeStatus := set }

/-- `void setPay(double newPay)`. -/
def setPay (e : employee) (newPay : Rat) : employee :=
  { e with pay := newPay }

/-- `void setPin(int pin)`. -/
def setPin (e : employee) (pin : Int) : employee :=
  { e with managerPin := pin }

/-- `void setPermissions(int status)`: 0 is manager, 1 is manager with master
access, anything else is associate. -/
def setPermissions (e : employee) (status : Int) : employee :=
  if status = 0 then { e with isManager := true, masterStatus := false }
  else if status = 1 then { e with isManager := true, masterStatus := true }
  else { e with isManager := false, masterStatus := false }

end employee

/-- The `punch` struct. -/
structure punch where
  employeeID : Int
  name : String
  type : String
  timestamp : String
  deriving DecidableEq, Repr

/-- The state the program works on: the employee vector of `main`, the content
of `employees.txt` and the content of `punchRecords.txt`. -/
structure System where
  employees : List employee
  employeesTxt : String
  punchRecordsTxt : String
  deriving DecidableEq, Repr

/-! ## Persistence -/

/-- How `ostream << bool` prints with the default flags. -/
def showBool (b : Bool) : String := if b then "1" else "0"

/-- One line of `employees.txt` as written by the body of the loop of
`saveEmployees`.  `showPay` is the text `ostream << double` produces. -/
def employeeLine (showPay : Rat → String) (e : employee) : String :=
  e.name ++ "|" ++ toString e.employeeID ++ "|" ++ showPay e.pay ++ "|"
    ++ showBool e.isManager ++ "|" ++ toString e.managerPin ++ "|"
    ++ showBool e.masterStatus ++ "|" ++ toString e.timeStatus ++ "\n"

/-- The content of `employees.txt` after `saveEmployees(employees)`: the file
is opened for writing, which empties it, and one line per record is written. -/
def saveEmployees (showPay : Rat → String) : List employee → String
  | [] => ""
  | e :: es => employeeLine showPay e ++ saveEmployees showPay es

/-- The line `savePunch` writes. -/
def punchLine (p : punch) : String :=
  toString p.employeeID ++ "--" ++ p.name ++ "--" ++ p.type ++ "--" ++ p.timestamp ++ "\n"

/-- The content of `punchRecords.txt` after `savePunch(p)`: the file is opened
with `ios::app` and one line is written at its end. -/
def savePunch (p : punch) (ledger : String) : String :=
  ledger ++ punchLine p

/-! ## Time-status transitions -/

/-- `void clockIn(vector<employee> &employees, int &employeeidx)`. -/
def clockIn (now : String) (s : System) (employeeidx : Nat) : Option System :=
  match s.employees[employeeidx]? with
  | none => none
  | some e =>
    if e.timeStatus = 0 then
      let p : punch := ⟨e.employeeID, e.name, "CLOCK_IN", now⟩
      some { s with
        punchRecordsTxt := savePunch p s.punchRecordsTxt
        employees := s.employees.set employeeidx (e.setTimeStatus 1) }
    else if e.timeStatus = 2 then some s
    else some s

/-- `void clockOut(vector<employee> &employees, int &employeeidx)`. -/
def clockOut (now : String) (s : System) (employeeidx : Nat) : Option System :=
  match s.employees[employeeidx]? with
  | none => none
  | some e =>
    if e.timeStatus = 1 then
      let p : punch := ⟨e.employeeID, e.name, "CLOCK_OUT", now⟩
      some { s with
        punchRecordsTxt := savePunch p s.punchRecordsTxt
        employees := s.employees.set employeeidx (e.setTimeStatus 0) }
    else some s

/-- `void startMeal(vector<employee> &employees, int &employeeidx)`. -/
def startMeal (now : String) (s : System) (employeeidx : Nat) : Option System :=
  match s.employees[employeeidx]? with
  | none => none
  | some e =>
    if e.timeStatus = 1 then
      let p : punch := ⟨e.employeeID, e.name, "START_MEAL", now⟩
      some { s with
        punchRecordsTxt := savePunch p s.punchRecordsTxt
        employees := s.employees.set employeeidx (e.setTimeStatus 2) }
    else some s

/-- `void endMeal(vector<employee> &employees, int &employeeidx)`. -/
def endMeal (now : String) (s : System) (employeeidx : Nat) : Option System :=
  match s.employees[employeeidx]? with
  | none => none
  | some e =>
    if e.timeStatus = 2 then
      let p : punch := ⟨e.employeeID, e.name, "END_MEAL", now⟩
      some { s with
        punchRecordsTxt := savePunch p s.punchRecordsTxt
        employees := s.employees.set employeeidx (e.setTimeStatus 1) }
    else some s

/-- The five records `main` creates when `employees.txt` gives no record.  The
pay literals are taken at their decimal value. -/
def seedEmployees : List employee :=
  [ ⟨"Test User", 1111111, 20, true, 1111, true, 1⟩,
    ⟨"Alex Martinez", 2039485, 15.25, false, 0, false, 1⟩,
    ⟨"Samantha Lee", 4012346, 16.10, true, 2864, false, 2⟩,
    ⟨"Jordan Patel", 1964273, 15.75, false, 0, false, 2⟩,
    ⟨"Chris Donovan", 4012348, 17, false, 0, false, 1⟩ ]

/-! ## Administrative operations -/

/-- The search loop of `changePay` and `statusChangeCheck`, started at
position `i`: the first position whose record has the id (the loop ends with
`break`), or `none` when the variable `idx` keeps its initial value `-1`. -/
def findFirstFrom (id : Int) : List employee → Nat → Option Nat
  | [], _ => none
  | e :: es, i => if e.employeeID = id then some i else findFirstFrom id es (i + 1)

/-- The search loop of `removeEmployee`, started at position `i`: it has no
`break`, so `idx` ends as the last position whose record has the id.  `acc` is
`none` while `found` is false and `some idx` afterwards. -/
def findLastFrom (id : Int) : List employee → Nat → Option Nat → Option Nat
  | [], _, acc => acc
  | e :: es, i, acc =>
    findLastFrom id es (i + 1) (if e.employeeID = id then some i else acc)

/-- The duplicate check of `addEmployee`: the value of `exists` after the
loop over the vector. -/
def idExists (id : Int) : List employee → Bool
  | [] => false
  | e :: es => if e.employeeID = id then true else idExists id es

/-- The id loop of `addEmployee`: extractions are retried until one gives a
7-digit number no record has. -/
def readNewId (employees : List employee) : List (Option Int) → Option Int
  | [] => none
  | none :: rest => readNewId employees rest
  | some id :: rest =>
    if id < 1000000 ∨ id > 9999999 then readNewId employees rest
    else if idExists id employees then readNewId employees rest
    else some id

/-- The pay loop of `addEmployee`: retried until a value that is not negative
is extracted. -/
def readPay : List (Option Rat) → Option Rat
  | [] => none
  | none :: rest => readPay rest
  | some pay :: rest => if pay < 0 then readPay rest else some pay

/-- The two 0/1 loops of `addEmployee` (`mgrInput`, `mstInput`): retried until
0 or 1 is extracted; the result is `input == 1`. -/
def readFlag : List (Option Int) → Option Bool
  | [] => none
  | none :: rest => readFlag rest
  | some v :: rest => if v ≠ 0 ∧ v ≠ 1 then readFlag rest else some (decide (v = 1))

/-- The pin loop of `addEmployee` and of `createMgrPin`: retried until a
4-digit number is extracted. -/
def readPin : List (Option Int) → Option Int
  | [] => none
  | none :: rest => readPin rest
  | some pin :: rest => if pin < 1000 ∨ pin > 9999 then readPin rest else some pin

/-- `void addEmployee(vector<employee> &employees, int &employeeidx)`.

`isManager0` is the value the local `bool isManager` holds before anything is
assigned to it: the declaration gives it no initial value, and it is assigned
only when the actor has master access. -/
def addEmployee (showPay : Rat → String) (s : System) (employeeidx : Nat)
    (name : String) (ids : List (Option Int)) (pays : List (Option Rat))
    (isManager0 : Bool) (mgrInputs mstInputs pins : List (Option Int)) : Option System :=
  match readNewId s.employees ids with
  | none => none
  | some id =>
  match readPay pays with
  | none => none
  | some pay =>
  match s.employees[employeeidx]? with
  | none => none
  | some actor =>
  match (if actor.masterStatus then readFlag mgrInputs else some isManager0) with
  | none => none
  | some isManager =>
  match (if actor.masterStatus && isManager then readFlag mstInputs else some false) with
  | none => none
  | some isMaster =>
  match (if isManager then readPin pins else some 0) with
  | none => none
  | some mgrpin =>
    let emps := s.employees ++ [⟨name, id, pay, isManager, mgrpin, isMaster, 0⟩]
    some { s with employees := emps, employeesTxt := saveEmployees showPay emps }

/-- `void removeEmployee(vector<employee> &employees, int &employeeidx)`.

The flag `found` is declared outside the loop, but an iteration that sets it
always ends in `return`, so every iteration starts with `found == false`. -/
def removeEmployee (showPay : Rat → String) (s : System) (employeeidx : Nat) :
    List (Option Int) → Option System
  | [] => none
  | none :: rest => removeEmployee showPay s employeeidx rest
  | some id :: rest =>
    if id < 1000000 ∨ id > 9999999 then removeEmployee showPay s employeeidx rest
    else
      match s.employees[employeeidx]? with
      | none => none
      | some actor =>
        if id = actor.employeeID then some s
        else
          match findLastFrom id s.employees 0 none with
          | none => removeEmployee showPay s employeeidx rest
          | some idx =>
            match s.employees[idx]? with
            | none => none
            | some target =>
              if !actor.masterStatus && target.isManager then some s
              else
                let emps := s.employees.eraseIdx idx
                some { s with employees := emps, employeesTxt := saveEmployees showPay emps }

/-- `void changePay(vector<employee> &employees, int &employeeidx)`.
`idIn` is the outcome of `cin >> id`, `payIn` that of `cin >> newPay`. -/
def changePay (showPay : Rat → String) (s : System) (employeeidx : Nat)
    (idIn : Option Int) (payIn : Option Rat) : Option System :=
  match idIn with
  | none => some s
  | some id =>
    if id < 1000000 ∨ id > 9999999 then some s
    else
      match s.employees[employeeidx]? with
      | none => none
      | some actor =>
        if id = actor.employeeID then some s
        else
          match findFirstFrom id s.employees 0 with
          | none => some s
          | some idx =>
            match s.employees[idx]? with
            | none => none
            | some target =>
              if target.masterStatus && !actor.masterStatus then some s
              else
                match payIn with
                | none => some s
                | some newPay =>
                  if newPay < 0 then some s
                  else
                    let emps := s.employees.set idx (target.setPay newPay)
                    some { s with employees := emps, employeesTxt := saveEmployees showPay emps }

/-- `int statusChangeCheck(vector<employee> &employees, int &employeeidx)`.
The result `some none` is the return value `-1`, `some (some idx)` the return
value `idx`. -/
def statusChangeCheck (employees : List employee) (employeeidx : Nat)
    (idIn : Option Int) : Option (Option Nat) :=
  match idIn with
  | none => some none
  | some id =>
    if id < 1000000 ∨ id > 9999999 then some none
    else
      match employees[employeeidx]? with
      | none => none
      | some actor =>
        if id = actor.employeeID then some none
        else
          match findFirstFrom id employees 0 with
          | none => some none
          | some idx =>
            match employees[idx]? with
            | none => none
            | some target =>
              if target.masterStatus && !actor.masterStatus then some none
              else some (some idx)

/-- `void createMgrPin(vector<employee> &employees, int &employeeidx, int idx)`:
the vector after the call. -/
def createMgrPin (employees : List employee) (idx : Nat)
    (pins : List (Option Int)) : Option (List employee) :=
  match employees[idx]? with
  | none => none
  | some target =>
    if target.managerPin = 0 then
      match readPin pins with
      | none => none
      | some pin => some (employees.set idx (target.setPin pin))
    else some employees

/-- The statement `employees[idx].setPermissions(status)`. -/
def setPermissionsAt (employees : List employee) (idx : Nat) (status : Int) :
    Option (List employee) :=
  match employees[idx]? with
  | none => none
  | some target => some (employees.set idx (target.setPermissions status))

/-- The statement `employees[idx].setPin(pin)`. -/
def setPinAt (employees : List employee) (idx : Nat) (pin : Int) :
    Option (List employee) :=
  match employees[idx]? with
  | none => none
  | some target => some (employees.set idx (target.setPin pin))

/-- `void changeStatus(vector<employee> &employees, int &employeeidx)`.
`idIn` is the outcome of `cin >> id` in `statusChangeCheck`, `choice` the
value of the variable `choice` after `cin >> choice`, and `pins` feeds the
loop of `createMgrPin`.  The subscripts `employees[employeeidx]` and
`employees[idx]` of the four cases are looked up once, before the `switch`. -/
def changeStatus (showPay : Rat → String) (s : System) (employeeidx : Nat)
    (idIn : Option Int) (choice : Char) (pins : List (Option Int)) : Option System :=
  match statusChangeCheck s.employees employeeidx idIn with
  | none => none
  | some none => some s
  | some (some idx) =>
    match s.employees[employeeidx]?, s.employees[idx]? with
    | some actor, some target =>
      if choice = '1' then
        if target.isManager then some s
        else
          match createMgrPin s.employees idx pins with
          | none => none
          | some emps1 =>
            match setPermissionsAt emps1 idx 0 with
            | none => none
            | some emps2 =>
              some { s with employees := emps2, employeesTxt := saveEmployees showPay emps2 }
      else if choice = '2' then
        if !actor.masterStatus then some s
        else if !target.isManager then some s
        else
          match setPermissionsAt s.employees idx (-1) with
          | none => none
          | some emps1 =>
            match setPinAt emps1 idx 0 with
            | none => none
            | some emps2 => some { s with employees := emps2 }
      else if choice = '3' then
        if !actor.masterStatus then some s
        else if target.masterStatus then some s
        else
          match createMgrPin s.employees idx pins with
          | none => none
          | some emps1 =>
            match setPermissionsAt emps1 idx 1 with
            | none => none
            | some emps2 =>
              some { s with employees := emps2, employeesTxt := saveEmployees showPay emps2 }
      else if choice = '4' then
        if !actor.masterStatus then some s
        else if !target.masterStatus then some s
        else
          match setPermissionsAt s.employees idx 0 with
          | none => none
          | some emps1 =>
            some { s with employees := emps1, employeesTxt := saveEmployees showPay emps1 }
      else some s
    | _, _ => none

/-! ## Predicates used in the statements -/

/-- Role and pin of one record are well formed: master access only for a
manager, no pin for an associate, a 4-digit pin for a manager. -/
def rolePinOk (e : employee) : Prop :=
  (e.masterStatus = true → e.isManager = true) ∧
  (e.isManager = false → e.managerPin = 0) ∧
  (e.isManager = true → 1000 ≤ e.managerPin ∧ e.managerPin ≤ 9999)

instance (e : employee) : Decidable (rolePinOk e) := by
  unfold rolePinOk; exact inferInstance

/-- Every record of the store is well formed in the sense of `rolePinOk`. -/
def storeOk (employees : List employee) : Prop :=
  ∀ e ∈ employees, rolePinOk e

instance (employees : List employee) : Decidable (storeOk employees) := by
  unfold storeOk; exact inferInstance

/-- The ids of the store are pairwise distinct. -/
def distinctIds (employees : List employee) : Prop :=
  (employees.map (fun e => e.employeeID)).Nodup

instance (employees : List employee) : Decidable (distinctIds employees) := by
  unfold distinctIds; exact inferInstance

/-- The state after a successful transition of the employee at position `i`
(record `e`): the status is `status`, one punch of kind `type` with the id and
the name of `e` is at the end of the ledger, the rest is as before. -/
def afterPunch (s : System) (i : Nat) (e : employee) (status : Int)
    (type now : String) : System :=
  { employees := s.employees.set i { e with timeStatus := status }
    employeesTxt := s.employeesTxt
    punchRecordsTxt := s.punchRecordsTxt ++ punchLine ⟨e.employeeID, e.name, type, now⟩ }

/-- The state after the employee vector became `emps` and `saveEmployees` was
run on it. -/
def saved (showPay : Rat → String) (s : System) (emps : List employee) : System :=
  { s with employees := emps, employeesTxt := saveEmployees showPay emps }

/-- A state as `main` has it right after the seed records are saved. -/
def seedSystem (showPay : Rat → String) : System :=
  { employees := seedEmployees
    employeesTxt := saveEmployees showPay seedEmployees
    punchRecordsTxt := "" }

/-! ## Example data for the witnesses -/

/-- A manager with master access. -/
def exampleSam : employee := ⟨"Sam", 3000001, 30, true, 1234, true, 1⟩

/-- A manager without master access. -/
def exampleMorgan : employee := ⟨"Morgan", 3000002, 25, true, 5678, false, 1⟩

/-- An associate who is off the clock. -/
def exampleAvery : employee := ⟨"Avery", 2000001, 15, false, 0, false, 0⟩

/-- An associate who is on the clock. -/
def exampleBlake : employee := ⟨"Blake", 2000002, 16, false, 0, false, 1⟩

/-- An associate who is on a meal. -/
def exampleCasey : employee := ⟨"Casey", 2000003, 17, false, 0, false, 2⟩

/-- The example store: positions 0 to 4 hold Sam, Morgan, Avery, Blake, Casey. -/
def exampleStore : List employee :=
  [exampleSam, exampleMorgan, exampleAvery, exampleBlake, exampleCasey]

/-- The example store with empty files. -/
def exampleSystem : System := ⟨exampleStore, "", ""⟩

/-- A record that has master access without being a manager and without a
pin, as a line `Riley|2000009|15|0|0|1|0` of `employees.txt` loads it. -/
def exampleRiley : employee := ⟨"Riley", 2000009, 15, false, 0, true, 0⟩

/-- Sam and Riley, with empty files. -/
def exampleRileySystem : System := ⟨[exampleSam, exampleRiley], "", ""⟩

/-! ## Predicates on ids and time status -/

/-- The ids of the store are pairwise distinct 7-digit numbers. -/
def idsOk (employees : List employee) : Prop :=
  distinctIds employees ∧
  ∀ e ∈ employees, 1000000 ≤ e.employeeID ∧ e.employeeID ≤ 9999999

instance (employees : List employee) : Decidable (idsOk employees) := by
  unfold idsOk; exact inferInstance

/-- Every time status of the store is 0 (off clock), 1 (on clock) or 2 (on
meal). -/
def statusOk (employees : List employee) : Prop :=
  ∀ e ∈ employees, e.timeStatus = 0 ∨ e.timeStatus = 1 ∨ e.timeStatus = 2

instance (employees : List employee) : Decidable (statusOk employees) := by
  unfold statusOk; exact inferInstance

/-! ## Text handling of the two loaders

A `std::string` is taken as its list of characters.  `size_t` is 64 bits wide:
positions are natural numbers below `2^64`, and sums and differences of
positions are reduced modulo `2^64`.  A call of `substr`, `stoi` or `stod` that
throws gives `none`; nothing in the program catches the exception. -/

/-- The constant `string::npos`, which is `2^64 - 1`. -/
def npos : Nat := 18446744073709551615

/-- Addition of two `size_t` values. -/
def sizeAdd (a b : Nat) : Nat := (a + b) % 18446744073709551616

/-- Subtraction of two `size_t` values. -/
def sizeSub (a b : Nat) : Nat :=
  (a % 18446744073709551616 + 18446744073709551616 - b % 18446744073709551616)
    % 18446744073709551616

/-- Whether the text `s` begins with the text `pat`. -/
def startsWith : List Char → List Char → Bool
  | [], _ => true
  | _ :: _, [] => false
  | p :: ps, c :: cs => p == c && startsWith ps cs

/-- The search of `string::find` in the rest `s` of a text, whose first
character stands at position `i`: the first position at which `pat` begins, or
`npos`. -/
def findFrom (pat : List Char) : List Char → Nat → Nat
  | [], _ => npos
  | c :: cs, i => if startsWith pat (c :: cs) then i else findFrom pat cs (i + 1)

/-- The call `s.find(pat, pos)` for a text `pat` that is not empty. -/
def find (s pat : List Char) (pos : Nat) : Nat :=
  findFrom pat (s.drop pos) pos

/-- The call `s.substr(pos, len)`; it throws when `pos` is beyond the end. -/
def substr (s : List Char) (pos len : Nat) : Option (List Char) :=
  if pos > s.length then none else some ((s.drop pos).take len)

/-- The characters `isspace` accepts in the "C" locale. -/
def isSpace (c : Char) : Bool :=
  c == ' ' || c == '\t' || c == '\n' || c == '\x0b' || c == '\x0c' || c == '\r'

/-- The number a run of decimal digits stands for, read from the left with
`acc` as the value read so far. -/
def digitsValue : List Char → Nat → Nat
  | [], acc => acc
  | c :: cs, acc => digitsValue cs (acc * 10 + (c.toNat - 48))

/-- The call `std::stoi(s)`: white space is skipped, a sign may follow, then
the longest run of digits is converted and what follows is ignored.  It throws
when there is no digit or the value is not an `int` (32 bits). -/
def stoi (s : List Char) : Option Int :=
  let s1 := s.dropWhile isSpace
  let s2 := if s1.head? = some '-' ∨ s1.head? = some '+' then s1.tail else s1
  let ds := s2.takeWhile Char.isDigit
  if ds = [] then none
  else
    let v : Int := if s1.head? = some '-' then -(digitsValue ds 0 : Int) else digitsValue ds 0
    if v < -2147483648 ∨ 2147483647 < v then none else some v

/-- The lines the loop `while (getline(file, line))` goes through when the
rest of the file is the second argument and `cur` holds the characters of the
current line read so far.  At the end of the file `getline` still gives a last
line when it has read at least one character. -/
def getlines : List Char → List Char → List (List Char)
  | cur, [] => if cur = [] then [] else [cur]
  | cur, c :: cs => if c = '\n' then cur :: getlines [] cs else getlines (cur ++ [c]) cs

/-- The body of the loop of `loadEmployees` for one line.  `some none` is the
`continue` (the line is skipped), `some (some e)` the record pushed back, and
`none` a thrown exception.  `stod` is `std::stod`. -/
def loadLine (stod : String → Option Rat) (line : List Char) : Option (Option employee) :=
  let p0 := find line ['|'] 0
  let p1 := find line ['|'] (sizeAdd p0 1)
  let p2 := find line ['|'] (sizeAdd p1 1)
  let p3 := find line ['|'] (sizeAdd p2 1)
  let p4 := find line ['|'] (sizeAdd p3 1)
  let p5 := find line ['|'] (sizeAdd p4 1)
  if p5 = npos then some none
  else
    (substr line 0 p0).bind fun name =>
    ((substr line (sizeAdd p0 1) (sizeSub (sizeSub p1 p0) 1)).bind stoi).bind fun id =>
    ((substr line (sizeAdd p1 1) (sizeSub (sizeSub p2 p1) 1)).bind
      fun t => stod (String.mk t)).bind fun pay =>
    ((substr line (sizeAdd p2 1) (sizeSub (sizeSub p3 p2) 1)).bind stoi).bind fun mgr =>
    ((substr line (sizeAdd p3 1) (sizeSub (sizeSub p4 p3) 1)).bind stoi).bind fun pin =>
    ((substr line (sizeAdd p4 1) (sizeSub (sizeSub p5 p4) 1)).bind stoi).bind fun master =>
    ((substr line (sizeAdd p5 1) npos).bind stoi).bind fun status =>
    some (some ⟨String.mk name, id, pay, decide (mgr ≠ 0), pin, decide (master ≠ 0), status⟩)

/-- The loop of `loadEmployees` over the lines of the file; `acc` is the
vector built so far. -/
def loadLines (stod : String → Option Rat) : List (List Char) → List employee →
    Option (List employee)
  | [], acc => some acc
  | line :: rest, acc =>
    match loadLine stod line with
    | none => none
    | some none => loadLines stod rest acc
    | some (some e) => loadLines stod rest (acc ++ [e])

/-- `void loadEmployees(vector<employee> &employees)` on an `employees.txt`
that exists, with content `file`: the vector after the call, or `none` when an
exception ends the program. -/
def loadEmployees (stod : String → Option Rat) (file : String) : Option (List employee) :=
  loadLines stod (getlines [] file.toList) []

/-- The body of the loop of `getLastPunch` for one line: the value of `last`
after it, or `none` for a thrown exception. -/
def lastPunchLine (employeeID : Int) (line : List Char) (last : punch) : Option punch :=
  let p1 := find line ['-', '-'] 0
  let p2 := find line ['-', '-'] (sizeAdd p1 2)
  let p3 := find line ['-', '-'] (sizeAdd p2 2)
  if p1 = npos ∨ p2 = npos ∨ p3 = npos then some last
  else
    ((substr line 0 p1).bind stoi).bind fun idFromFile =>
    if idFromFile = employeeID then
      (substr line (sizeAdd p1 2) (sizeSub p2 (sizeAdd p1 2))).bind fun name =>
      (substr line (sizeAdd p2 2) (sizeSub p3 (sizeAdd p2 2))).bind fun type =>
      (substr line (sizeAdd p3 2) npos).bind fun timestamp =>
      some ⟨idFromFile, String.mk name, String.mk type, String.mk timestamp⟩
    else some last

/-- The loop of `getLastPunch` over the lines of the ledger. -/
def lastPunchLines (employeeID : Int) : List (List Char) → punch → Option punch
  | [], last => some last
  | line :: rest, last =>
    match lastPunchLine employeeID line last with
    | none => none
    | some last1 => lastPunchLines employeeID rest last1

/-- `punch getLastPunch(int employeeID)` with `ledger` the content of
`punchRecords.txt`.  The function reads the file and returns a `punch`; it
writes nothing. -/
def getLastPunch (ledger : String) (employeeID : Int) : Option punch :=
  lastPunchLines employeeID (getlines [] ledger.toList) ⟨0, "", "", ""⟩

/-- An instance of `std::stod` for the examples, which only hold whole-number
pay: the text is read as a whole number.  `std::stod` gives the same value on a
text of digits. -/
def stodWhole (s : String) : Option Rat :=
  (stoi s.toList).map fun n => (n : Rat)

/-! ## Records and punches that the text formats can hold -/

/-- The value fits an `int` (32 bits), as every `int` member does. -/
def isInt (n : Int) : Prop := -2147483648 ≤ n ∧ n ≤ 2147483647

instance (n : Int) : Decidable (isInt n) := by
  unfold isInt; exact inferInstance

/-- A record that a line of `employees.txt` can hold: the name has no
separator `|` and no line break, the text written for the pay has neither and
`stod` reads the pay back from it, the `int` members fit an `int`, and the
line is shorter than `npos`. -/
def loadable (showPay : Rat → String) (stod : String → Option Rat) (e : employee) : Prop :=
  '|' ∉ e.name.toList ∧ '\n' ∉ e.name.toList ∧
  '|' ∉ (showPay e.pay).toList ∧ '\n' ∉ (showPay e.pay).toList ∧
  stod (showPay e.pay) = some e.pay ∧
  isInt e.employeeID ∧ isInt e.managerPin ∧ isInt e.timeStatus ∧
  (employeeLine showPay e).length < npos

instance (showPay : Rat → String) (stod : String → Option Rat) (e : employee) :
    Decidable (loadable showPay stod e) := by
  unfold loadable; exact inferInstance

/-- The characters of the line `saveEmployees` writes for a record, without
the line break. -/
def employeeLineChars (showPay : Rat → String) (e : employee) : List Char :=
  e.name.toList ++ '|' :: ((toString e.employeeID).toList ++ '|' ::
    ((showPay e.pay).toList ++ '|' :: ((showBool e.isManager).toList ++ '|' ::
      ((toString e.managerPin).toList ++ '|' :: ((showBool e.masterStatus).toList ++ '|' ::
        (toString e.timeStatus).toList)))))

/-- Whether the text `pat` occurs somewhere in the text `s`. -/
def occurs (pat : List Char) : List Char → Bool
  | [] => false
  | c :: cs => startsWith pat (c :: cs) || occurs pat cs

/-- A field of a ledger line that the separator `--` after it cannot be
confused with: it holds no `--` and does not end in `-`, which is to say that
the field followed by one `-` holds no `--`. -/
def dashFree (a : List Char) : Prop := occurs ['-', '-'] (a ++ ['-']) = false

instance (a : List Char) : Decidable (dashFree a) := by
  unfold dashFree; exact inferInstance

/-- A punch that a line of `punchRecords.txt` can hold: the id fits an `int`,
name and type are free of the separator, name, type and timestamp hold no line
break, and the line is shorter than `npos`. -/
def punchOk (p : punch) : Prop :=
  isInt p.employeeID ∧ dashFree p.name.toList ∧ dashFree p.type.toList ∧
  '\n' ∉ p.name.toList ∧ '\n' ∉ p.type.toList ∧ '\n' ∉ p.timestamp.toList ∧
  (punchLine p).length < npos

instance (p : punch) : Decidable (punchOk p) := by
  unfold punchOk; exact inferInstance

/-- The characters of the line `savePunch` writes for a punch, without the
line break. -/
def punchLineChars (p : punch) : List Char :=
  (toString p.employeeID).toList ++ '-' :: '-' :: (p.name.toList ++ '-' :: '-' ::
    (p.type.toList ++ '-' :: '-' :: p.timestamp.toList))

/-- The ledger after `savePunch` was called for the punches of the list, in
order, starting from an empty file. -/
def ledgerOf (ps : List punch) : String :=
  ps.foldl (fun ledger p => savePunch p ledger) ""

/-- The result `getLastPunch` starts from and returns when nothing matches. -/
def noPunch : punch := ⟨0, "", "", ""⟩

/-- The last punch of the list with the given id, or `noPunch` when there is
none: the list is gone through from the front and every punch with the id
replaces the one kept so far. -/
def lastWithId (employeeID : Int) (ps : List punch) : punch :=
  ps.foldl (fun last p => if p.employeeID = employeeID then p else last) noPunch

/-! ## The edit session -/

/-- `int setIndex(int input, vector<employee> &employees)`: the first position
whose record has the id, or `-1`. -/
def setIndex (input : Int) (employees : List employee) : Int :=
  match findFirstFrom input employees 0 with
  | some i => i
  | none => -1

/-- `void displayEmployees(vector<employee> &employees, int &employeeidx)`:
the listing is printed, so only the subscript matters here.  Every round of the
loop over the vector reads `employees[employeeidx]`; `none` is the
out-of-range subscript. -/
def displayEmployees (employees : List employee) (employeeidx : Nat) : Option Unit :=
  if employees = [] then some ()
  else
    match employees[employeeidx]? with
    | none => none
    | some _ => some ()

/-- One round of the menu of `editInfo`: the choice typed (`1` add, `2` remove,
`3` change pay, `4` change status, `5` exit, anything else) together with the
input the chosen operation reads. -/
inductive EditStep where
  | add (name : String) (ids : List (Option Int)) (pays : List (Option Rat))
      (isManager0 : Bool) (mgrInputs mstInputs pins : List (Option Int))
  | remove (ids : List (Option Int))
  | pay (idIn : Option Int) (payIn : Option Rat)
  | status (idIn : Option Int) (choice : Char) (pins : List (Option Int))
  | leave
  | unknown

/-- `void editInfo(vector<employee> &employees, int &employeeidx)`: the menu
loop, fed with the rounds of the list.  The same `employeeidx` is passed to
every operation; the loop ends with the choice `5`, and never ends when the
input runs out before. -/
def editInfo (showPay : Rat → String) (s : System) (employeeidx : Nat) :
    List EditStep → Option System
  | [] => none
  | step :: rest =>
    match displayEmployees s.employees employeeidx with
    | none => none
    | some _ =>
      match step with
      | EditStep.add name ids pays isManager0 mgrInputs mstInputs pins =>
        match addEmployee showPay s employeeidx name ids pays isManager0 mgrInputs mstInputs
            pins with
        | none => none
        | some s1 => editInfo showPay s1 employeeidx rest
      | EditStep.remove ids =>
        match removeEmployee showPay s employeeidx ids with
        | none => none
        | some s1 => editInfo showPay s1 employeeidx rest
      | EditStep.pay idIn payIn =>
        match changePay showPay s employeeidx idIn payIn with
        | none => none
        | some s1 => editInfo showPay s1 employeeidx rest
      | EditStep.status idIn choice pins =>
        match changeStatus showPay s employeeidx idIn choice pins with
        | none => none
        | some s1 => editInfo showPay s1 employeeidx rest
      | EditStep.leave => some s
      | EditStep.unknown => editInfo showPay s employeeidx rest

/-- A store in which the manager Morgan stands between the associate Avery and
Sam, who has master access. -/
def exampleSessionStore : List employee := [exampleAvery, exampleMorgan, exampleSam]

/-! ## Time-status transitions: success and rejection -/

theorem set_getElem?_other (l : List employee) (i j : Nat) (x : employee) (h : j ≠ i) :
    (l.set i x)[j]? = l[j]? := by
  rw [List.getElem?_set]
  simp [Ne.symm h]

/-- C1: for every employee list and in-range position `i` holding record `e`,
`clockIn` on status 0, `clockOut` on status 1, `startMeal` on status 1 and
`endMeal` on status 2 return, set the status to 1, 0, 2 and 1, and append
exactly one punch line (`CLOCK_IN`, `CLOCK_OUT`, `START_MEAL`, `END_MEAL`) with
the id and name of `e` after the old ledger; the new record at `i` differs
from `e` in `timeStatus` only and every other position is unchanged. -/
theorem C1_transition_success (now : String) (s : System) (i : Nat) (e : employee)
    (h : s.employees[i]? = some e) :
    (e.timeStatus = 0 → clockIn now s i = some (afterPunch s i e 1 "CLOCK_IN" now)) ∧
    (e.timeStatus = 1 → clockOut now s i = some (afterPunch s i e 0 "CLOCK_OUT" now)) ∧
    (e.timeStatus = 1 → startMeal now s i = some (afterPunch s i e 2 "START_MEAL" now)) ∧
    (e.timeStatus = 2 → endMeal now s i = some (afterPunch s i e 1 "END_MEAL" now)) ∧
    (∀ status type, (afterPunch s i e status type now).employees.length = s.employees.length ∧
      (afterPunch s i e status type now).employees[i]? =
        some ⟨e.name, e.employeeID, e.pay, e.isManager, e.managerPin, e.masterStatus, status⟩ ∧
      (∀ j, j ≠ i → (afterPunch s i e status type now).employees[j]? = s.employees[j]?) ∧
      (afterPunch s i e status type now).punchRecordsTxt =
        savePunch ⟨e.employeeID, e.name, type, now⟩ s.punchRecordsTxt) := by
  have hi : i < s.employees.length := by
    rcases Nat.lt_or_ge i s.employees.length with hlt | hge
    · exact hlt
    · rw [List.getElem?_eq_none hge] at h; cases h
  refine ⟨?_, ?_, ?_, ?_, ?_⟩
  · intro h0
    simp [clockIn, h, h0, afterPunch, savePunch, employee.setTimeStatus]
  · intro h0
    simp [clockOut, h, h0, afterPunch, savePunch, employee.setTimeStatus]
  · intro h0
    simp [startMeal, h, h0, afterPunch, savePunch, employee.setTimeStatus]
  · intro h0
    simp [endMeal, h, h0, afterPunch, savePunch, employee.setTimeStatus]
  · intro status type
    refine ⟨by simp [afterPunch], ?_, ?_, by simp [afterPunch, savePunch]⟩
    · simp [afterPunch, List.getElem?_set, hi]
    · intro j hj
      exact set_getElem?_other _ _ _ _ hj

/-- Witness of C1 on the example store: Avery (position 2, off the clock)
clocks in, Blake (position 3, on the clock) clocks out or starts a meal, and
Casey (position 4, on a meal) ends the meal. -/
theorem C1_transition_success_witness :
    exampleSystem.employees[2]? = some exampleAvery ∧ exampleAvery.timeStatus = 0 ∧
    clockIn "10/30/26 09:00:00" exampleSystem 2 =
      some ⟨[exampleSam, exampleMorgan, ⟨"Avery", 2000001, 15, false, 0, false, 1⟩,
              exampleBlake, exampleCasey], "", "2000001--Avery--CLOCK_IN--10/30/26 09:00:00\n"⟩ ∧
    clockOut "t" exampleSystem 3 = some (afterPunch exampleSystem 3 exampleBlake 0 "CLOCK_OUT" "t") ∧
    startMeal "t" exampleSystem 3 = some (afterPunch exampleSystem 3 exampleBlake 2 "START_MEAL" "t") ∧
    endMeal "t" exampleSystem 4 = some (afterPunch exampleSystem 4 exampleCasey 1 "END_MEAL" "t") :=
  ⟨rfl, rfl,
   ((C1_transition_success "10/30/26 09:00:00" exampleSystem 2 exampleAvery rfl).1 rfl).trans
     (by decide),
   (C1_transition_success "t" exampleSystem 3 exampleBlake rfl).2.1 rfl,
   (C1_transition_success "t" exampleSystem 3 exampleBlake rfl).2.2.1 rfl,
   (C1_transition_success "t" exampleSystem 4 exampleCasey rfl).2.2.2.1 rfl⟩

/-- C2: a rejected transition has no side effect.  For every state and
in-range position `i` holding record `e`: `clockIn` with status other than 0,
`clockOut` or `startMeal` with status other than 1 and `endMeal` with status
other than 2 return the state they were given (employee list, ledger and
saved file).  Starting from status 0, a second `clockIn` right after the
first returns the state the first one produced: the status changed once, to
1, and one punch line was appended. -/
theorem C2_rejection_no_effect (now : String) (s : System) (i : Nat) (e : employee)
    (h : s.employees[i]? = some e) :
    (e.timeStatus ≠ 0 → clockIn now s i = some s) ∧
    (e.timeStatus ≠ 1 → clockOut now s i = some s) ∧
    (e.timeStatus ≠ 1 → startMeal now s i = some s) ∧
    (e.timeStatus ≠ 2 → endMeal now s i = some s) ∧
    (e.timeStatus = 0 → ∀ now2 : String,
      clockIn now s i = some (afterPunch s i e 1 "CLOCK_IN" now) ∧
      clockIn now2 (afterPunch s i e 1 "CLOCK_IN" now) i =
        some (afterPunch s i e 1 "CLOCK_IN" now) ∧
      (afterPunch s i e 1 "CLOCK_IN" now).employees[i]? = some { e with timeStatus := 1 } ∧
      (afterPunch s i e 1 "CLOCK_IN" now).punchRecordsTxt =
        savePunch ⟨e.employeeID, e.name, "CLOCK_IN", now⟩ s.punchRecordsTxt) := by
  have hi : i < s.employees.length := by
    rcases Nat.lt_or_ge i s.employees.length with hlt | hge
    · exact hlt
    · rw [List.getElem?_eq_none hge] at h; cases h
  refine ⟨?_, ?_, ?_, ?_, ?_⟩
  · intro h0
    simp [clockIn, h, h0]
  · intro h0
    simp [clockOut, h, h0]
  · intro h0
    simp [startMeal, h, h0]
  · intro h0
    simp [endMeal, h, h0]
  · intro h0 now2
    have hget : (afterPunch s i e 1 "CLOCK_IN" now).employees[i]? =
        some { e with timeStatus := 1 } := by
      simp [afterPunch, List.getElem?_set, hi]
    refine ⟨?_, ?_, hget, by simp [afterPunch, savePunch]⟩
    · simp [clockIn, h, h0, afterPunch, savePunch, employee.setTimeStatus]
    · simp [clockIn, hget]

/-- Witness of C2 on the example store: Blake (on the clock) cannot clock in or
end a meal, Avery (off the clock) cannot clock out or start a meal, and Avery
clocking in twice ends on the clock with one punch in the ledger. -/
theorem C2_rejection_no_effect_witness :
    exampleSystem.employees[3]? = some exampleBlake ∧ exampleBlake.timeStatus ≠ 0 ∧
    clockIn "t" exampleSystem 3 = some exampleSystem ∧
    endMeal "t" exampleSystem 3 = some exampleSystem ∧
    clockOut "t" exampleSystem 2 = some exampleSystem ∧
    startMeal "t" exampleSystem 2 = some exampleSystem ∧
    ((clockIn "t1" exampleSystem 2).bind fun s1 => clockIn "t2" s1 2) =
      some ⟨[exampleSam, exampleMorgan, ⟨"Avery", 2000001, 15, false, 0, false, 1⟩,
              exampleBlake, exampleCasey], "", "2000001--Avery--CLOCK_IN--t1\n"⟩ :=
  ⟨rfl, by decide,
   (C2_rejection_no_effect "t" exampleSystem 3 exampleBlake rfl).1 (by decide),
   (C2_rejection_no_effect "t" exampleSystem 3 exampleBlake rfl).2.2.2.1 (by decide),
   (C2_rejection_no_effect "t" exampleSystem 2 exampleAvery rfl).2.1 (by decide),
   (C2_rejection_no_effect "t" exampleSystem 2 exampleAvery rfl).2.2.1 (by decide),
   by
    have h := (C2_rejection_no_effect "t1" exampleSystem 2 exampleAvery rfl).2.2.2.2 rfl "t2"
    rw [h.1, Option.some_bind, h.2.1]
    decide⟩

/-! ## Administrative operations: denied requests -/

/-- C3: no actor can change their own pay or role.  For every state, every
in-range actor position (whatever the actor's role), every outcome of the pay
extraction, every menu choice and every pin input: `changePay` and
`changeStatus` given the actor's own id return the state unchanged. -/
theorem C3_no_self_change (showPay : Rat → String) (s : System) (a : Nat) (actor : employee)
    (h : s.employees[a]? = some actor) (payIn : Option Rat) (choice : Char)
    (pins : List (Option Int)) :
    changePay showPay s a (some actor.employeeID) payIn = some s ∧
    changeStatus showPay s a (some actor.employeeID) choice pins = some s := by
  constructor
  · unfold changePay
    by_cases hr : actor.employeeID < 1000000 ∨ actor.employeeID > 9999999
    · simp [hr]
    · simp [hr, h]
  · unfold changeStatus statusChangeCheck
    by_cases hr : actor.employeeID < 1000000 ∨ actor.employeeID > 9999999
    · simp [hr]
    · simp [hr, h]

/-- Witness of C3 on the example store: Sam (master), Morgan (manager) and
Avery (associate) each name their own id; every menu choice leaves the state
as it was. -/
theorem C3_no_self_change_witness :
    exampleSystem.employees[0]? = some exampleSam ∧
    changePay toString exampleSystem 0 (some 3000001) (some 99) = some exampleSystem ∧
    changeStatus toString exampleSystem 0 (some 3000001) '4' [some 4321] = some exampleSystem ∧
    changeStatus toString exampleSystem 1 (some 3000002) '3' [some 4321] = some exampleSystem ∧
    changeStatus toString exampleSystem 2 (some 2000001) '1' [some 4321] = some exampleSystem ∧
    changePay toString exampleSystem 2 (some 2000001) (some 99) = some exampleSystem :=
  ⟨rfl,
   (C3_no_self_change toString exampleSystem 0 exampleSam rfl (some 99) '4' [some 4321]).1,
   (C3_no_self_change toString exampleSystem 0 exampleSam rfl (some 99) '4' [some 4321]).2,
   (C3_no_self_change toString exampleSystem 1 exampleMorgan rfl none '3' [some 4321]).2,
   (C3_no_self_change toString exampleSystem 2 exampleAvery rfl none '1' [some 4321]).2,
   (C3_no_self_change toString exampleSystem 2 exampleAvery rfl (some 99) '1' []).1⟩

/-! ## What `statusChangeCheck` and `changeStatus` do -/

theorem getElem?_lt {l : List employee} {i : Nat} {e : employee} (h : l[i]? = some e) :
    i < l.length := by
  rcases Nat.lt_or_ge i l.length with hlt | hge
  · exact hlt
  · rw [List.getElem?_eq_none hge] at h; cases h

theorem set_getElem?_self {l : List employee} {i : Nat} {e : employee} (x : employee)
    (h : l[i]? = some e) : (l.set i x)[i]? = some x := by
  simp [List.getElem?_set, getElem?_lt h]

theorem readPin_range {pins : List (Option Int)} {p : Int} (h : readPin pins = some p) :
    1000 ≤ p ∧ p ≤ 9999 := by
  induction pins with
  | nil => simp [readPin] at h
  | cons r rest ih =>
    cases r with
    | none => exact ih (by simpa [readPin] using h)
    | some v =>
      by_cases hv : v < 1000 ∨ v > 9999
      · exact ih (by simpa [readPin, hv] using h)
      · simp only [readPin, hv, if_false, Option.some.injEq] at h
        subst h
        omega

/-- When `statusChangeCheck` returns a position, the id was a 7-digit number
other than the actor's, the position is the first one with that id, and the
record there has master access only if the actor has it. -/
theorem statusChangeCheck_some {employees : List employee} {a : Nat} {idIn : Option Int}
    {idx : Nat} (h : statusChangeCheck employees a idIn = some (some idx)) :
    ∃ id actor target, idIn = some id ∧ 1000000 ≤ id ∧ id ≤ 9999999 ∧
      employees[a]? = some actor ∧ id ≠ actor.employeeID ∧
      findFirstFrom id employees 0 = some idx ∧ employees[idx]? = some target ∧
      (target.masterStatus = true → actor.masterStatus = true) := by
  unfold statusChangeCheck at h
  cases idIn with
  | none => simp at h
  | some id =>
    by_cases hr : id < 1000000 ∨ id > 9999999
    · simp [hr] at h
    · cases ha : employees[a]? with
      | none => simp [hr, ha] at h
      | some actor =>
        by_cases hs : id = actor.employeeID
        · simp [hr, ha, hs] at h
        · cases hf : findFirstFrom id employees 0 with
          | none => simp [hr, ha, hs, hf] at h
          | some k =>
            cases ht : employees[k]? with
            | none => simp [hr, ha, hs, hf, ht] at h
            | some target =>
              by_cases hm : (target.masterStatus && !actor.masterStatus) = true
              · simp [hr, ha, hs, hf, ht, hm] at h
              · simp [hr, ha, hs, hf, ht, hm] at h
                subst h
                refine ⟨id, actor, target, rfl, by omega, by omega, rfl, hs, hf, ht, ?_⟩
                intro htm
                cases hma : actor.masterStatus with
                | true => rfl
                | false => simp [htm, hma] at hm

/-- `createMgrPin` on an in-range position: a pin is read and stored when the
record has pin 0, and nothing happens otherwise. -/
theorem createMgrPin_eq {employees : List employee} {idx : Nat} {t : employee}
    (ht : employees[idx]? = some t) (pins : List (Option Int)) :
    createMgrPin employees idx pins =
      if t.managerPin = 0 then (readPin pins).map fun p => employees.set idx (t.setPin p)
      else some employees := by
  unfold createMgrPin
  simp only [ht]
  split
  · cases readPin pins <;> rfl
  · rfl

/-- Promotion that goes through: the target is not a manager.  A pin is read
when the target has pin 0; the target becomes a manager without master access
and the store is saved. -/
theorem changeStatus_promote {showPay : Rat → String} {s : System} {a idx : Nat}
    {idIn : Option Int} {actor t : employee} (pins : List (Option Int))
    (hc : statusChangeCheck s.employees a idIn = some (some idx))
    (ha : s.employees[a]? = some actor) (ht : s.employees[idx]? = some t)
    (hm : t.isManager = false) :
    changeStatus showPay s a idIn '1' pins =
      (if t.managerPin = 0 then readPin pins else some t.managerPin).map fun p =>
        saved showPay s
          (s.employees.set idx ⟨t.name, t.employeeID, t.pay, true, p, false, t.timeStatus⟩) := by
  unfold changeStatus
  simp only [hc, ha, ht, hm, createMgrPin_eq ht]
  by_cases hp : t.managerPin = 0
  · cases hr : readPin pins with
    | none => simp [hp, hr]
    | some p =>
      simp [hp, hr, setPermissionsAt, set_getElem?_self _ ht, employee.setPin,
        employee.setPermissions, saved]
  · simp [hp, setPermissionsAt, ht, employee.setPermissions, saved]

/-- Demotion that goes through: the actor has master access and the target is
a manager.  The target becomes an associate with pin 0; the store is not
saved. -/
theorem changeStatus_demote {showPay : Rat → String} {s : System} {a idx : Nat}
    {idIn : Option Int} {actor t : employee} (pins : List (Option Int))
    (hc : statusChangeCheck s.employees a idIn = some (some idx))
    (ha : s.employees[a]? = some actor) (ht : s.employees[idx]? = some t)
    (hma : actor.masterStatus = true) (hm : t.isManager = true) :
    changeStatus showPay s a idIn '2' pins =
      some { s with employees :=
        s.employees.set idx ⟨t.name, t.employeeID, t.pay, false, 0, false, t.timeStatus⟩ } := by
  unfold changeStatus
  simp [hc, ha, ht, hm, hma, setPermissionsAt, setPinAt, set_getElem?_self _ ht,
    employee.setPin, employee.setPermissions]

/-- Granting master access that goes through: the actor has master access and
the target does not.  A pin is read when the target has pin 0; the target
becomes a manager with master access and the store is saved. -/
theorem changeStatus_grant {showPay : Rat → String} {s : System} {a idx : Nat}
    {idIn : Option Int} {actor t : employee} (pins : List (Option Int))
    (hc : statusChangeCheck s.employees a idIn = some (some idx))
    (ha : s.employees[a]? = some actor) (ht : s.employees[idx]? = some t)
    (hma : actor.masterStatus = true) (hm : t.masterStatus = false) :
    changeStatus showPay s a idIn '3' pins =
      (if t.managerPin = 0 then readPin pins else some t.managerPin).map fun p =>
        saved showPay s
          (s.employees.set idx ⟨t.name, t.employeeID, t.pay, true, p, true, t.timeStatus⟩) := by
  unfold changeStatus
  simp only [hc, ha, ht, hm, hma, createMgrPin_eq ht]
  by_cases hp : t.managerPin = 0
  · cases hr : readPin pins with
    | none => simp [hp, hr]
    | some p =>
      simp [hp, hr, setPermissionsAt, set_getElem?_self _ ht, employee.setPin,
        employee.setPermissions, saved]
  · simp [hp, setPermissionsAt, ht, employee.setPermissions, saved]

/-- Removing master access that goes through: the actor and the target have
master access.  The target becomes a manager without master access and the
store is saved. -/
theorem changeStatus_revoke {showPay : Rat → String} {s : System} {a idx : Nat}
    {idIn : Option Int} {actor t : employee} (pins : List (Option Int))
    (hc : statusChangeCheck s.employees a idIn = some (some idx))
    (ha : s.employees[a]? = some actor) (ht : s.employees[idx]? = some t)
    (hma : actor.masterStatus = true) (hm : t.masterStatus = true) :
    changeStatus showPay s a idIn '4' pins =
      some (saved showPay s
        (s.employees.set idx ⟨t.name, t.employeeID, t.pay, true, t.managerPin, false, t.timeStatus⟩)) := by
  unfold changeStatus
  simp [hc, ha, ht, hm, hma, setPermissionsAt, employee.setPermissions, saved]

/-- The requests `changeStatus` turns down after `statusChangeCheck` gave a
position: promotion of a manager, choices 2 to 4 by an actor without master
access, demotion of an associate, granting master access to one who has it,
removing it from one who has not, and any other choice. -/
theorem changeStatus_denied {showPay : Rat → String} {s : System} {a idx : Nat}
    {idIn : Option Int} {actor t : employee} (choice : Char) (pins : List (Option Int))
    (hc : statusChangeCheck s.employees a idIn = some (some idx))
    (ha : s.employees[a]? = some actor) (ht : s.employees[idx]? = some t)
    (hd : (choice = '1' ∧ t.isManager = true) ∨
      (choice = '2' ∧ (actor.masterStatus = false ∨ t.isManager = false)) ∨
      (choice = '3' ∧ (actor.masterStatus = false ∨ t.masterStatus = true)) ∨
      (choice = '4' ∧ (actor.masterStatus = false ∨ t.masterStatus = false)) ∨
      (choice ≠ '1' ∧ choice ≠ '2' ∧ choice ≠ '3' ∧ choice ≠ '4')) :
    changeStatus showPay s a idIn choice pins = some s := by
  unfold changeStatus
  simp only [hc, ha, ht]
  rcases hd with ⟨h1, h2⟩ | ⟨h1, h2⟩ | ⟨h1, h2⟩ | ⟨h1, h2⟩ | ⟨h1, h2, h3, h4⟩
  · simp [h1, h2]
  · subst h1
    rcases h2 with h2 | h2
    · simp [h2]
    · simp [h2]
  · subst h1
    rcases h2 with h2 | h2
    · simp [h2]
    · simp [h2]
  · subst h1
    rcases h2 with h2 | h2
    · simp [h2]
    · simp [h2]
  · simp [h1, h2, h3, h4]

/-- Every way `changeStatus` can return: with the state unchanged, or with one
of the four changes of the record at the position `statusChangeCheck` gave. -/
theorem changeStatus_cases {showPay : Rat → String} {s w : System} {a : Nat}
    {idIn : Option Int} {choice : Char} {pins : List (Option Int)}
    (h : changeStatus showPay s a idIn choice pins = some w) :
    w = s ∨ ∃ idx actor t p,
      statusChangeCheck s.employees a idIn = some (some idx) ∧
      s.employees[a]? = some actor ∧ s.employees[idx]? = some t ∧
      ((choice = '1' ∧ t.isManager = false ∧
          (if t.managerPin = 0 then readPin pins else some t.managerPin) = some p ∧
          w = saved showPay s
            (s.employees.set idx ⟨t.name, t.employeeID, t.pay, true, p, false, t.timeStatus⟩)) ∨
       (choice = '2' ∧ actor.masterStatus = true ∧ t.isManager = true ∧
          w = { s with employees :=
            s.employees.set idx ⟨t.name, t.employeeID, t.pay, false, 0, false, t.timeStatus⟩ }) ∨
       (choice = '3' ∧ actor.masterStatus = true ∧ t.masterStatus = false ∧
          (if t.managerPin = 0 then readPin pins else some t.managerPin) = some p ∧
          w = saved showPay s
            (s.employees.set idx ⟨t.name, t.employeeID, t.pay, true, p, true, t.timeStatus⟩)) ∨
       (choice = '4' ∧ actor.masterStatus = true ∧ t.masterStatus = true ∧
          w = saved showPay s
            (s.employees.set idx
              ⟨t.name, t.employeeID, t.pay, true, t.managerPin, false, t.timeStatus⟩))) := by
  cases hc : statusChangeCheck s.employees a idIn with
  | none => simp [changeStatus, hc] at h
  | some r =>
    cases r with
    | none =>
      left
      simp [changeStatus, hc] at h
      exact h.symm
    | some idx =>
      obtain ⟨id, actor, t, -, -, -, ha, -, -, ht, -⟩ := statusChangeCheck_some hc
      by_cases h1 : choice = '1'
      · subst h1
        cases hm : t.isManager with
        | true =>
          left
          rw [changeStatus_denied '1' pins hc ha ht (Or.inl ⟨rfl, hm⟩)] at h
          exact (Option.some.inj h).symm
        | false =>
          rw [changeStatus_promote pins hc ha ht hm] at h
          cases hp : (if t.managerPin = 0 then readPin pins else some t.managerPin) with
          | none => simp [hp] at h
          | some p =>
            right
            refine ⟨idx, actor, t, p, rfl, ha, ht, Or.inl ⟨rfl, hm, hp, ?_⟩⟩
            simp [hp] at h
            exact h.symm
      by_cases h2 : choice = '2'
      · subst h2
        cases hma : actor.masterStatus with
        | false =>
          left
          rw [changeStatus_denied '2' pins hc ha ht (Or.inr (Or.inl ⟨rfl, Or.inl hma⟩))] at h
          exact (Option.some.inj h).symm
        | true =>
          cases hm : t.isManager with
          | false =>
            left
            rw [changeStatus_denied '2' pins hc ha ht (Or.inr (Or.inl ⟨rfl, Or.inr hm⟩))] at h
            exact (Option.some.inj h).symm
          | true =>
            right
            rw [changeStatus_demote pins hc ha ht hma hm] at h
            exact ⟨idx, actor, t, 0, rfl, ha, ht,
              Or.inr (Or.inl ⟨rfl, hma, hm, (Option.some.inj h).symm⟩)⟩
      by_cases h3 : choice = '3'
      · subst h3
        cases hma : actor.masterStatus with
        | false =>
          left
          rw [changeStatus_denied '3' pins hc ha ht
            (Or.inr (Or.inr (Or.inl ⟨rfl, Or.inl hma⟩)))] at h
          exact (Option.some.inj h).symm
        | true =>
          cases hm : t.masterStatus with
          | true =>
            left
            rw [changeStatus_denied '3' pins hc ha ht
              (Or.inr (Or.inr (Or.inl ⟨rfl, Or.inr hm⟩)))] at h
            exact (Option.some.inj h).symm
          | false =>
            rw [changeStatus_grant pins hc ha ht hma hm] at h
            cases hp : (if t.managerPin = 0 then readPin pins else some t.managerPin) with
            | none => simp [hp] at h
            | some p =>
              right
              refine ⟨idx, actor, t, p, rfl, ha, ht, Or.inr (Or.inr (Or.inl ⟨rfl, hma, hm, hp, ?_⟩))⟩
              simp [hp] at h
              exact h.symm
      by_cases h4 : choice = '4'
      · subst h4
        cases hma : actor.masterStatus with
        | false =>
          left
          rw [changeStatus_denied '4' pins hc ha ht
            (Or.inr (Or.inr (Or.inr (Or.inl ⟨rfl, Or.inl hma⟩))))] at h
          exact (Option.some.inj h).symm
        | true =>
          cases hm : t.masterStatus with
          | false =>
            left
            rw [changeStatus_denied '4' pins hc ha ht
              (Or.inr (Or.inr (Or.inr (Or.inl ⟨rfl, Or.inr hm⟩))))] at h
            exact (Option.some.inj h).symm
          | true =>
            right
            rw [changeStatus_revoke pins hc ha ht hma hm] at h
            exact ⟨idx, actor, t, 0, rfl, ha, ht,
              Or.inr (Or.inr (Or.inr ⟨rfl, hma, hm, (Option.some.inj h).symm⟩))⟩
      left
      rw [changeStatus_denied choice pins hc ha ht
        (Or.inr (Or.inr (Or.inr (Or.inr ⟨h1, h2, h3, h4⟩))))] at h
      exact (Option.some.inj h).symm

/-! ## What `changePay` does -/

/-- The position the search loop returns holds a record with the id. -/
theorem findFirstFrom_spec {id : Int} {l : List employee} {i k : Nat}
    (h : findFirstFrom id l i = some k) :
    i ≤ k ∧ ∃ e, l[k - i]? = some e ∧ e.employeeID = id := by
  induction l generalizing i with
  | nil => simp [findFirstFrom] at h
  | cons x xs ih =>
    by_cases hx : x.employeeID = id
    · simp [findFirstFrom, hx] at h
      subst h
      exact ⟨Nat.le_refl _, x, by simp, hx⟩
    · simp only [findFirstFrom, hx, if_false] at h
      obtain ⟨hle, e, he, hid⟩ := ih h
      refine ⟨by omega, e, ?_, hid⟩
      have hk : k - i = (k - (i + 1)) + 1 := by omega
      rw [hk, List.getElem?_cons_succ]
      exact he

theorem findFirstFrom_zero {id : Int} {l : List employee} {k : Nat}
    (h : findFirstFrom id l 0 = some k) : ∃ e, l[k]? = some e ∧ e.employeeID = id := by
  obtain ⟨-, e, he, hid⟩ := findFirstFrom_spec h
  exact ⟨e, by simpa using he, hid⟩

/-- Every way `changePay` can return: with the state unchanged, or with the pay
of the first record that has the id replaced and the store saved. -/
theorem changePay_cases {showPay : Rat → String} {s w : System} {a : Nat}
    {idIn : Option Int} {payIn : Option Rat}
    (h : changePay showPay s a idIn payIn = some w) :
    w = s ∨ ∃ id actor idx t newPay,
      idIn = some id ∧ s.employees[a]? = some actor ∧ id ≠ actor.employeeID ∧
      findFirstFrom id s.employees 0 = some idx ∧ s.employees[idx]? = some t ∧
      (t.masterStatus = true → actor.masterStatus = true) ∧
      payIn = some newPay ∧ 0 ≤ newPay ∧
      w = saved showPay s (s.employees.set idx
        ⟨t.name, t.employeeID, newPay, t.isManager, t.managerPin, t.masterStatus, t.timeStatus⟩) := by
  unfold changePay at h
  cases idIn with
  | none => left; simp at h; exact h.symm
  | some id =>
    by_cases hr : id < 1000000 ∨ id > 9999999
    · left; simp [hr] at h; exact h.symm
    · cases ha : s.employees[a]? with
      | none => simp [hr, ha] at h
      | some actor =>
        by_cases hs : id = actor.employeeID
        · left; simp [hr, ha, hs] at h; exact h.symm
        · cases hf : findFirstFrom id s.employees 0 with
          | none => left; simp [hr, ha, hs, hf] at h; exact h.symm
          | some k =>
            cases ht : s.employees[k]? with
            | none => simp [hr, ha, hs, hf, ht] at h
            | some t =>
              by_cases hm : (t.masterStatus && !actor.masterStatus) = true
              · left; simp [hr, ha, hs, hf, ht, hm] at h; exact h.symm
              · cases payIn with
                | none => left; simp [hr, ha, hs, hf, ht, hm] at h; exact h.symm
                | some newPay =>
                  by_cases hn : newPay < 0
                  · left; simp [hr, ha, hs, hf, ht, hm, hn] at h; exact h.symm
                  · right
                    simp [hr, ha, hs, hf, ht, hm, hn] at h
                    refine ⟨id, actor, k, t, newPay, rfl, rfl, hs, hf, ht, ?_, rfl,
                      not_lt.mp hn, ?_⟩
                    · intro htm
                      cases hma : actor.masterStatus with
                      | true => rfl
                      | false => simp [htm, hma] at hm
                    · rw [← h]
                      simp [saved, employee.setPay]

/-- `changePay` returns whenever the actor position is in range. -/
theorem changePay_returns (showPay : Rat → String) (s : System) (a : Nat) (actor : employee)
    (ha : s.employees[a]? = some actor) (idIn : Option Int) (payIn : Option Rat) :
    ∃ w, changePay showPay s a idIn payIn = some w := by
  unfold changePay
  cases idIn with
  | none => exact ⟨s, rfl⟩
  | some id =>
    by_cases hr : id < 1000000 ∨ id > 9999999
    · exact ⟨s, by simp [hr]⟩
    · by_cases hs : id = actor.employeeID
      · exact ⟨s, by simp [hr, ha, hs]⟩
      · cases hf : findFirstFrom id s.employees 0 with
        | none => exact ⟨s, by simp [hr, ha, hs, hf]⟩
        | some k =>
          obtain ⟨t, ht, -⟩ := findFirstFrom_zero hf
          by_cases hm : (t.masterStatus && !actor.masterStatus) = true
          · exact ⟨s, by simp [hr, ha, hs, hf, ht, hm]⟩
          · cases payIn with
            | none => exact ⟨s, by simp [hr, ha, hs, hf, ht, hm]⟩
            | some newPay =>
              by_cases hn : newPay < 0
              · exact ⟨s, by simp [hr, ha, hs, hf, ht, hm, hn]⟩
              · exact ⟨saved showPay s (s.employees.set k (t.setPay newPay)),
                  by simp [hr, ha, hs, hf, ht, hm, hn, saved]⟩

/-! ## Records with master access are out of reach of an actor without it -/

/-- C4: for every state, every actor without master access (position `a`) and
every record `t` with master access (position `j`): whatever id, pay, choice
and pins are supplied, `changePay` returns and leaves the record at `j` as it
was, and whenever `changeStatus` returns it leaves the record at `j` as it
was, so the pay, `isManager`, `masterStatus` and `managerPin` of `t` are
unchanged.  When the id supplied is the id of `t` and `t` is the record the
search finds, both calls return the whole state unchanged. -/
theorem C4_master_target_protected (showPay : Rat → String) (s : System) (a j : Nat)
    (actor t : employee)
    (ha : s.employees[a]? = some actor) (hna : actor.masterStatus = false)
    (hj : s.employees[j]? = some t) (hmt : t.masterStatus = true)
    (idIn : Option Int) (payIn : Option Rat) (choice : Char) (pins : List (Option Int)) :
    (∃ w, changePay showPay s a idIn payIn = some w ∧ w.employees[j]? = some t) ∧
    (∀ w, changeStatus showPay s a idIn choice pins = some w → w.employees[j]? = some t) ∧
    (idIn = some t.employeeID → findFirstFrom t.employeeID s.employees 0 = some j →
      changePay showPay s a idIn payIn = some s ∧
      changeStatus showPay s a idIn choice pins = some s) := by
  have hne : ∀ idx t0, s.employees[idx]? = some t0 →
      (t0.masterStatus = true → actor.masterStatus = true) → j ≠ idx := by
    intro idx t0 h0 himp hEq
    subst hEq
    rw [hj] at h0
    cases h0
    have := himp hmt
    rw [hna] at this
    cases this
  refine ⟨?_, ?_, ?_⟩
  · obtain ⟨w, hw⟩ := changePay_returns showPay s a actor ha idIn payIn
    refine ⟨w, hw, ?_⟩
    rcases changePay_cases hw with rfl | ⟨id, actor1, idx, t0, newPay, -, ha1, -, -, ht0, himp, -, -, rfl⟩
    · exact hj
    · rw [ha] at ha1
      cases ha1
      simp only [saved]
      rw [set_getElem?_other _ _ _ _ (hne idx t0 ht0 himp)]
      exact hj
  · intro w hw
    rcases changeStatus_cases hw with rfl | ⟨idx, actor1, t0, p, hc, ha1, ht0, hcase⟩
    · exact hj
    · obtain ⟨id, actor2, t2, -, -, -, ha2, -, -, ht2, himp⟩ := statusChangeCheck_some hc
      rw [ha] at ha2
      cases ha2
      have hji := hne idx t2 ht2 himp
      rcases hcase with ⟨-, -, -, rfl⟩ | ⟨-, -, -, rfl⟩ | ⟨-, -, -, -, rfl⟩ | ⟨-, -, -, rfl⟩ <;>
        · simp only [saved]
          rw [set_getElem?_other _ _ _ _ hji]
          exact hj
  · intro hid hf
    subst hid
    constructor
    · unfold changePay
      by_cases hr : t.employeeID < 1000000 ∨ t.employeeID > 9999999
      · simp [hr]
      · by_cases hs : t.employeeID = actor.employeeID
        · simp [hr, ha, hs]
        · simp [hr, ha, hs, hf, hj, hmt, hna]
    · unfold changeStatus statusChangeCheck
      by_cases hr : t.employeeID < 1000000 ∨ t.employeeID > 9999999
      · simp [hr]
      · by_cases hs : t.employeeID = actor.employeeID
        · simp [hr, ha, hs]
        · simp [hr, ha, hs, hf, hj, hmt, hna]

/-- Witness of C4 on the example store: Morgan (manager without master access)
names Sam (master access); the pay change and every status change are turned
down and the state stays as it was. -/
theorem C4_master_target_protected_witness :
    exampleSystem.employees[1]? = some exampleMorgan ∧ exampleMorgan.masterStatus = false ∧
    exampleSystem.employees[0]? = some exampleSam ∧ exampleSam.masterStatus = true ∧
    findFirstFrom exampleSam.employeeID exampleSystem.employees 0 = some 0 ∧
    changePay toString exampleSystem 1 (some 3000001) (some 99) = some exampleSystem ∧
    changeStatus toString exampleSystem 1 (some 3000001) '2' [some 4321] = some exampleSystem ∧
    changeStatus toString exampleSystem 1 (some 3000001) '4' [some 4321] = some exampleSystem :=
  ⟨rfl, rfl, rfl, rfl, by decide,
   ((C4_master_target_protected toString exampleSystem 1 0 exampleMorgan exampleSam rfl rfl rfl rfl
      (some 3000001) (some 99) '2' [some 4321]).2.2 rfl (by decide)).1,
   ((C4_master_target_protected toString exampleSystem 1 0 exampleMorgan exampleSam rfl rfl rfl rfl
      (some 3000001) (some 99) '2' [some 4321]).2.2 rfl (by decide)).2,
   ((C4_master_target_protected toString exampleSystem 1 0 exampleMorgan exampleSam rfl rfl rfl rfl
      (some 3000001) (some 99) '4' [some 4321]).2.2 rfl (by decide)).2⟩

/-- `statusChangeCheck` returns whenever the actor position is in range. -/
theorem statusChangeCheck_returns (employees : List employee) (a : Nat) (actor : employee)
    (ha : employees[a]? = some actor) (idIn : Option Int) :
    ∃ r, statusChangeCheck employees a idIn = some r := by
  unfold statusChangeCheck
  cases idIn with
  | none => exact ⟨none, rfl⟩
  | some id =>
    by_cases hr : id < 1000000 ∨ id > 9999999
    · exact ⟨none, by simp [hr]⟩
    · by_cases hs : id = actor.employeeID
      · exact ⟨none, by simp [hr, ha, hs]⟩
      · cases hf : findFirstFrom id employees 0 with
        | none => exact ⟨none, by simp [hr, ha, hs, hf]⟩
        | some k =>
          obtain ⟨t, ht, -⟩ := findFirstFrom_zero hf
          by_cases hm : (t.masterStatus && !actor.masterStatus) = true
          · exact ⟨none, by simp [hr, ha, hs, hf, ht, hm]⟩
          · exact ⟨some k, by simp [hr, ha, hs, hf, ht, hm]⟩

/-! ## Choices reserved to an actor with master access -/

/-- C5: demotion, granting and removing master access need an actor with
master access.  For every state, every in-range actor without master access,
every id and pin input: `changeStatus` with choice 2, 3 or 4 returns the state
unchanged; and whenever `changeStatus` by such an actor returns with a changed
employee list, the choice was 1. -/
theorem C5_master_only_choices (showPay : Rat → String) (s : System) (a : Nat)
    (actor : employee) (ha : s.employees[a]? = some actor)
    (hna : actor.masterStatus = false)
    (idIn : Option Int) (choice : Char) (pins : List (Option Int)) :
    (choice = '2' ∨ choice = '3' ∨ choice = '4' →
      changeStatus showPay s a idIn choice pins = some s) ∧
    (∀ w, changeStatus showPay s a idIn choice pins = some w →
      w.employees ≠ s.employees → choice = '1') := by
  constructor
  · intro hch
    obtain ⟨r, hc⟩ := statusChangeCheck_returns s.employees a actor ha idIn
    cases r with
    | none => simp [changeStatus, hc]
    | some idx =>
      obtain ⟨id, actor1, t, -, -, -, ha1, -, -, ht, -⟩ := statusChangeCheck_some hc
      rw [ha] at ha1
      cases ha1
      refine changeStatus_denied choice pins hc ha ht ?_
      rcases hch with h | h | h
      · exact Or.inr (Or.inl ⟨h, Or.inl hna⟩)
      · exact Or.inr (Or.inr (Or.inl ⟨h, Or.inl hna⟩))
      · exact Or.inr (Or.inr (Or.inr (Or.inl ⟨h, Or.inl hna⟩)))
  · intro w hw hne
    rcases changeStatus_cases hw with rfl | ⟨idx, actor1, t, p, -, ha1, -, hcase⟩
    · exact absurd rfl hne
    · rw [ha] at ha1
      cases ha1
      rcases hcase with ⟨h, -⟩ | ⟨-, hm, -⟩ | ⟨-, hm, -⟩ | ⟨-, hm, -⟩
      · exact h
      · rw [hna] at hm; cases hm
      · rw [hna] at hm; cases hm
      · rw [hna] at hm; cases hm

/-- Witness of C5 on the example store: Morgan (manager without master access)
cannot demote Blake, grant him master access or remove it, but promotes him
with pin 4321. -/
theorem C5_master_only_choices_witness :
    exampleSystem.employees[1]? = some exampleMorgan ∧ exampleMorgan.masterStatus = false ∧
    changeStatus toString exampleSystem 1 (some 2000002) '2' [some 4321] = some exampleSystem ∧
    changeStatus toString exampleSystem 1 (some 2000002) '3' [some 4321] = some exampleSystem ∧
    changeStatus toString exampleSystem 1 (some 2000002) '4' [some 4321] = some exampleSystem ∧
    (changeStatus toString exampleSystem 1 (some 2000002) '1' [some 4321]).map
        (fun w => w.employees) =
      some [exampleSam, exampleMorgan, exampleAvery,
        ⟨"Blake", 2000002, 16, true, 4321, false, 1⟩, exampleCasey] :=
  ⟨rfl, rfl,
   (C5_master_only_choices toString exampleSystem 1 exampleMorgan rfl rfl (some 2000002) '2'
      [some 4321]).1 (Or.inl rfl),
   (C5_master_only_choices toString exampleSystem 1 exampleMorgan rfl rfl (some 2000002) '3'
      [some 4321]).1 (Or.inr (Or.inl rfl)),
   (C5_master_only_choices toString exampleSystem 1 exampleMorgan rfl rfl (some 2000002) '4'
      [some 4321]).1 (Or.inr (Or.inr rfl)),
   by decide⟩

/-! ## `removeEmployee` -/

/-- The search loop of `removeEmployee` keeps `found`/`idx` as they were when no
record has the id. -/
theorem findLastFrom_absent {id : Int} {l : List employee} (i : Nat) (acc : Option Nat)
    (h : ∀ e ∈ l, e.employeeID ≠ id) : findLastFrom id l i acc = acc := by
  induction l generalizing i acc with
  | nil => rfl
  | cons x xs ih =>
    have hx : x.employeeID ≠ id := h x (List.mem_cons_self _ _)
    simp only [findLastFrom, hx, if_false]
    exact ih _ _ (fun e he => h e (List.mem_cons_of_mem _ he))

/-- With pairwise distinct ids the search loop of `removeEmployee` ends at the
position of the record that has the id. -/
theorem findLastFrom_distinct {id : Int} {l : List employee} {j : Nat} {t : employee}
    (i : Nat) (acc : Option Nat) (hd : distinctIds l) (hj : l[j]? = some t)
    (hid : t.employeeID = id) : findLastFrom id l i acc = some (i + j) := by
  induction l generalizing i j acc with
  | nil => simp at hj
  | cons x xs ih =>
    unfold distinctIds at hd
    rw [List.map_cons, List.nodup_cons] at hd
    obtain ⟨hx, hxs⟩ := hd
    cases j with
    | zero =>
      simp at hj
      subst hj
      simp only [findLastFrom, hid, if_true]
      rw [findLastFrom_absent]
      · rfl
      · intro e he hEq
        apply hx
        rw [List.mem_map]
        exact ⟨e, he, by rw [hEq, hid]⟩
    | succ j =>
      simp at hj
      have hne : x.employeeID ≠ id := by
        intro hEq
        apply hx
        rw [List.mem_map]
        exact ⟨t, List.getElem?_mem hj, by rw [hid, hEq]⟩
      simp only [findLastFrom, hne, if_false]
      rw [ih (i + 1) acc hxs hj]
      congr 1
      omega

/-- With pairwise distinct ids, erasing the position of the record that has the
id is the same as dropping every record with that id. -/
theorem eraseIdx_eq_filter {id : Int} {l : List employee} {j : Nat} {t : employee}
    (hd : distinctIds l) (hj : l[j]? = some t) (hid : t.employeeID = id) :
    l.eraseIdx j = l.filter fun e => decide (e.employeeID ≠ id) := by
  induction l generalizing j with
  | nil => simp at hj
  | cons x xs ih =>
    unfold distinctIds at hd
    rw [List.map_cons, List.nodup_cons] at hd
    obtain ⟨hx, hxs⟩ := hd
    cases j with
    | zero =>
      simp at hj
      subst hj
      simp only [List.eraseIdx_cons_zero]
      rw [List.filter_cons_of_neg (by simp [hid])]
      symm
      rw [List.filter_eq_self]
      intro e he
      simp only [decide_eq_true_eq]
      intro hEq
      apply hx
      rw [List.mem_map]
      exact ⟨e, he, by rw [hEq, hid]⟩
    | succ j =>
      simp at hj
      have hne : x.employeeID ≠ id := by
        intro hEq
        apply hx
        rw [List.mem_map]
        exact ⟨t, List.getElem?_mem hj, by rw [hid, hEq]⟩
      simp only [List.eraseIdx_cons_succ]
      rw [List.filter_cons_of_pos (by simp [hne]), ih hxs hj]

/-- C6: `removeEmployee` on a store with pairwise distinct ids, given a 7-digit
id as its first input.  When the id is the actor's own, or the record with the
id is a manager and the actor has no master access, the call returns the state
unchanged.  Otherwise, when a record has the id, the call returns the store
with exactly that record dropped (its position is erased) and every other
record kept, in the original order, and the store is saved. -/
theorem C6_removeEmployee (showPay : Rat → String) (s : System) (a : Nat) (actor : employee)
    (ha : s.employees[a]? = some actor) (hd : distinctIds s.employees)
    (id : Int) (hlo : 1000000 ≤ id) (hhi : id ≤ 9999999) (rest : List (Option Int)) :
    (id = actor.employeeID → removeEmployee showPay s a (some id :: rest) = some s) ∧
    (∀ (j : Nat) (t : employee), s.employees[j]? = some t → t.employeeID = id →
      t.isManager = true → actor.masterStatus = false →
      removeEmployee showPay s a (some id :: rest) = some s) ∧
    (∀ (j : Nat) (t : employee), s.employees[j]? = some t → t.employeeID = id → id ≠ actor.employeeID →
      ¬(t.isManager = true ∧ actor.masterStatus = false) →
      removeEmployee showPay s a (some id :: rest) =
        some (saved showPay s (s.employees.filter fun e => decide (e.employeeID ≠ id))) ∧
      (s.employees.filter fun e => decide (e.employeeID ≠ id)) = s.employees.eraseIdx j) := by
  have hr : ¬(id < 1000000 ∨ id > 9999999) := by omega
  refine ⟨?_, ?_, ?_⟩
  · intro hs
    subst hs
    simp [removeEmployee, hr, ha]
  · intro j t hj hid hm hna
    have hf := findLastFrom_distinct 0 none hd hj hid
    rw [Nat.zero_add] at hf
    by_cases hs : id = actor.employeeID
    · subst hs
      simp [removeEmployee, hr, ha]
    · simp [removeEmployee, hr, ha, hs, hf, hj, hm, hna]
  · intro j t hj hid hs hperm
    have hf := findLastFrom_distinct 0 none hd hj hid
    rw [Nat.zero_add] at hf
    have he := eraseIdx_eq_filter hd hj hid
    refine ⟨?_, he.symm⟩
    rw [← he]
    have hc : (!actor.masterStatus && t.isManager) = false := by
      cases hma : actor.masterStatus <;> cases hm : t.isManager <;> simp_all
    simp [removeEmployee, hr, ha, hs, hf, hj, hc, saved]

/-- Witness of C6 on the example store: Morgan (manager without master access)
cannot remove himself or the manager Sam, and removes the associate Blake;
Sam (master access) removes the manager Morgan. -/
theorem C6_removeEmployee_witness :
    exampleSystem.employees[1]? = some exampleMorgan ∧ distinctIds exampleSystem.employees ∧
    removeEmployee toString exampleSystem 1 [some 3000002] = some exampleSystem ∧
    removeEmployee toString exampleSystem 1 [some 3000001] = some exampleSystem ∧
    removeEmployee toString exampleSystem 1 [some 2000002] =
      some (saved toString exampleSystem [exampleSam, exampleMorgan, exampleAvery, exampleCasey]) ∧
    removeEmployee toString exampleSystem 0 [some 3000002] =
      some (saved toString exampleSystem [exampleSam, exampleAvery, exampleBlake, exampleCasey]) :=
  ⟨rfl, by decide,
   (C6_removeEmployee toString exampleSystem 1 exampleMorgan rfl (by decide) 3000002
      (by decide) (by decide) []).1 rfl,
   (C6_removeEmployee toString exampleSystem 1 exampleMorgan rfl (by decide) 3000001
      (by decide) (by decide) []).2.1 0 exampleSam rfl rfl rfl rfl,
   ((C6_removeEmployee toString exampleSystem 1 exampleMorgan rfl (by decide) 2000002
      (by decide) (by decide) []).2.2 3 exampleBlake rfl rfl (by decide) (by decide)).1,
   ((C6_removeEmployee toString exampleSystem 0 exampleSam rfl (by decide) 3000002
      (by decide) (by decide) []).2.2 1 exampleMorgan rfl rfl (by decide) (by decide)).1⟩

/-! ## `addEmployee` by an actor without master access -/

/-- For an actor without master access the two 0/1 questions are skipped: the
new record is a manager exactly when the local `isManager` held `true` before
any assignment, and then a pin is asked for. -/
theorem addEmployee_not_master (showPay : Rat → String) (s : System) (a : Nat)
    (actor : employee) (ha : s.employees[a]? = some actor) (hna : actor.masterStatus = false)
    (name : String) (id : Int) (pay : Rat) (ids : List (Option Int)) (pays : List (Option Rat))
    (hid : readNewId s.employees ids = some id) (hpay : readPay pays = some pay)
    (isManager0 : Bool) (mgrInputs mstInputs pins : List (Option Int)) :
    addEmployee showPay s a name ids pays isManager0 mgrInputs mstInputs pins =
      if isManager0 then
        (readPin pins).map fun pin =>
          saved showPay s (s.employees ++ [⟨name, id, pay, true, pin, false, 0⟩])
      else some (saved showPay s (s.employees ++ [⟨name, id, pay, false, 0, false, 0⟩])) := by
  unfold addEmployee
  simp only [hid, hpay, ha, hna]
  cases isManager0 with
  | false => simp [saved]
  | true =>
    cases hp : readPin pins with
    | none => simp [hp]
    | some pin => simp [hp, saved]

/-- C7, evaluated on the example store with Morgan (manager without master
access) as the actor, name "Dana", fresh id 5555555 and pay 10.  When the
uninitialised local `isManager` happens to hold `true`, a pin is asked for and
the record appended is a manager with that pin (4321), not an associate with
pin 0; without pin input the call never returns.  When it happens to hold
`false`, the record appended is the associate the claim describes. -/
theorem C7_addEmployee_uninitialised_isManager :
    exampleSystem.employees[1]? = some exampleMorgan ∧ exampleMorgan.masterStatus = false ∧
    idExists 5555555 exampleSystem.employees = false ∧
    (addEmployee toString exampleSystem 1 "Dana" [some 5555555] [some 10] true [] []
        [some 4321]).map (fun w => w.employees) =
      some (exampleStore ++ [⟨"Dana", 5555555, 10, true, 4321, false, 0⟩]) ∧
    addEmployee toString exampleSystem 1 "Dana" [some 5555555] [some 10] true [] [] [] = none ∧
    (addEmployee toString exampleSystem 1 "Dana" [some 5555555] [some 10] false [] []
        [some 4321]).map (fun w => w.employees) =
      some (exampleStore ++ [⟨"Dana", 5555555, 10, false, 0, false, 0⟩]) := by
  refine ⟨rfl, rfl, by decide, ?_, ?_, ?_⟩
  · rw [addEmployee_not_master toString exampleSystem 1 exampleMorgan rfl rfl "Dana" 5555555 10
      [some 5555555] [some 10] (by decide) (by decide)]
    rfl
  · rw [addEmployee_not_master toString exampleSystem 1 exampleMorgan rfl rfl "Dana" 5555555 10
      [some 5555555] [some 10] (by decide) (by decide)]
    rfl
  · rw [addEmployee_not_master toString exampleSystem 1 exampleMorgan rfl rfl "Dana" 5555555 10
      [some 5555555] [some 10] (by decide) (by decide)]
    rfl

/-! ## Persistence after an administrative change -/

/-- What holds of saving: `addEmployee`, `removeEmployee`, `changePay` and
`changeStatus` with a choice other than 2 return either the state they were
given or a state whose file is the saved form of its employee list. -/
theorem admin_saved_except_demote (showPay : Rat → String) (s w : System) (a : Nat) :
    (∀ name ids pays isManager0 mgrInputs mstInputs pins,
      addEmployee showPay s a name ids pays isManager0 mgrInputs mstInputs pins = some w →
      w.employeesTxt = saveEmployees showPay w.employees) ∧
    (∀ ids, removeEmployee showPay s a ids = some w →
      w = s ∨ w.employeesTxt = saveEmployees showPay w.employees) ∧
    (∀ idIn payIn, changePay showPay s a idIn payIn = some w →
      w = s ∨ w.employeesTxt = saveEmployees showPay w.employees) ∧
    (∀ idIn choice pins, changeStatus showPay s a idIn choice pins = some w → choice ≠ '2' →
      w = s ∨ w.employeesTxt = saveEmployees showPay w.employees) := by
  refine ⟨?_, ?_, ?_, ?_⟩
  · intro name ids pays isManager0 mgrInputs mstInputs pins h
    unfold addEmployee at h
    split at h
    · cases h
    · split at h
      · cases h
      · split at h
        · cases h
        · split at h
          · cases h
          · split at h
            · cases h
            · split at h
              · cases h
              · simp only [Option.some.injEq] at h
                rw [← h]
  · intro ids
    induction ids with
    | nil => intro h; simp [removeEmployee] at h
    | cons r rest ih =>
      intro h
      cases r with
      | none => exact ih (by simpa [removeEmployee] using h)
      | some id =>
        unfold removeEmployee at h
        split at h
        · exact ih h
        · split at h
          · cases h
          · split at h
            · left; exact (Option.some.inj h).symm
            · split at h
              · exact ih h
              · split at h
                · cases h
                · split at h
                  · left; exact (Option.some.inj h).symm
                  · right
                    simp only [Option.some.injEq] at h
                    rw [← h]
  · intro idIn payIn h
    rcases changePay_cases h with rfl | ⟨_, _, _, _, _, -, -, -, -, -, -, -, -, rfl⟩
    · exact Or.inl rfl
    · exact Or.inr rfl
  · intro idIn choice pins h h2
    rcases changeStatus_cases h with rfl | ⟨_, _, _, _, -, -, -, hcase⟩
    · exact Or.inl rfl
    · rcases hcase with ⟨-, -, -, rfl⟩ | ⟨hc, -⟩ | ⟨-, -, -, -, rfl⟩ | ⟨-, -, -, rfl⟩
      · exact Or.inr rfl
      · exact absurd hc h2
      · exact Or.inr rfl
      · exact Or.inr rfl

/-- C8, evaluated where it fails: the example store right after a save, Sam
(master access) demotes the manager Morgan with choice 2.  The call returns
with Morgan an associate with pin 0, so the employee list changed, while
`employees.txt` still holds what was saved before the call, which is not the
saved form of the new list. -/
theorem C8_demote_not_saved (showPay : Rat → String) :
    changeStatus showPay (saved showPay exampleSystem exampleStore) 0 (some 3000002) '2' [] =
      some ⟨[exampleSam, ⟨"Morgan", 3000002, 25, false, 0, false, 1⟩, exampleAvery,
              exampleBlake, exampleCasey],
            saveEmployees showPay exampleStore, ""⟩ ∧
    [exampleSam, ⟨"Morgan", 3000002, 25, false, 0, false, 1⟩, exampleAvery,
        exampleBlake, exampleCasey] ≠ exampleStore ∧
    saveEmployees showPay exampleStore ≠
      saveEmployees showPay [exampleSam, ⟨"Morgan", 3000002, 25, false, 0, false, 1⟩,
        exampleAvery, exampleBlake, exampleCasey] := by
  refine ⟨?_, by decide, ?_⟩
  · have hc : statusChangeCheck exampleStore 0 (some 3000002) = some (some 1) := by decide
    rw [@changeStatus_demote showPay (saved showPay exampleSystem exampleStore) 0 1
      (some 3000002) exampleSam exampleMorgan [] hc rfl rfl rfl rfl]
    rfl
  · intro h
    have hl := congrArg String.length h
    simp [saveEmployees, employeeLine, exampleStore, exampleSam, exampleMorgan, exampleAvery,
      exampleBlake, exampleCasey, showBool, String.length_append] at hl
    have h1 : (toString (5678 : Int)).length = 4 := by decide
    have h0 : (toString (0 : Int)).length = 1 := by decide
    have hb1 : "1".length = 1 := by decide
    have hb0 : "0".length = 1 := by decide
    rw [h1, h0, hb1, hb0] at hl
    omega

/-! ## Promotion and granting master access -/

/-- `statusChangeCheck` gives the position of the first record with the id when
the id is a 7-digit number other than the actor's and the record has master
access only if the actor has it. -/
theorem statusChangeCheck_of {employees : List employee} {a idx : Nat} {actor t : employee}
    {id : Int} (ha : employees[a]? = some actor) (hlo : 1000000 ≤ id) (hhi : id ≤ 9999999)
    (hne : id ≠ actor.employeeID) (hf : findFirstFrom id employees 0 = some idx)
    (ht : employees[idx]? = some t)
    (hperm : t.masterStatus = true → actor.masterStatus = true) :
    statusChangeCheck employees a (some id) = some (some idx) := by
  have hr : ¬(id < 1000000 ∨ id > 9999999) := by omega
  have hm : (t.masterStatus && !actor.masterStatus) = false := by
    cases htm : t.masterStatus with
    | false => rfl
    | true => simp [hperm htm]
  simp [statusChangeCheck, hr, ha, hne, hf, ht, hm]

theorem set_same {l : List employee} {i : Nat} {t : employee} (h : l[i]? = some t) :
    l.set i t = l := by
  induction l generalizing i with
  | nil => rfl
  | cons x xs ih =>
    cases i with
    | zero =>
      simp at h
      subst h
      rfl
    | succ i =>
      simp at h
      simp [ih h]

/-- C9 as stated fails for granting master access: on the store of Sam
(master access) and Riley (master access, not a manager, pin 0), Sam's
`changeStatus` with Riley's id, choice 3 and pin 4321 returns the state
unchanged, so Riley does not end as a manager and has no pin. -/
theorem C9_grant_counterexample :
    exampleRileySystem.employees[0]? = some exampleSam ∧ exampleSam.masterStatus = true ∧
    exampleRileySystem.employees[1]? = some exampleRiley ∧
    exampleRiley.isManager = false ∧ exampleRiley.managerPin = 0 ∧
    changeStatus toString exampleRileySystem 0 (some 2000009) '3' [some 4321] =
      some exampleRileySystem ∧
    ¬ ∃ w t, changeStatus toString exampleRileySystem 0 (some 2000009) '3' [some 4321] = some w ∧
        w.employees[1]? = some t ∧ t.isManager = true ∧ t.masterStatus = true ∧
        t.managerPin = 4321 := by
  have hc : statusChangeCheck exampleRileySystem.employees 0 (some 2000009) = some (some 1) := by
    decide
  have hev : changeStatus toString exampleRileySystem 0 (some 2000009) '3' [some 4321] =
      some exampleRileySystem :=
    changeStatus_denied '3' [some 4321] hc rfl rfl
      (Or.inr (Or.inr (Or.inl ⟨rfl, Or.inr rfl⟩)))
  refine ⟨rfl, rfl, rfl, rfl, rfl, hev, ?_⟩
  rintro ⟨w, t, hw, ht, hm, -, -⟩
  rw [hev] at hw
  cases hw
  have hR : exampleRileySystem.employees[1]? = some exampleRiley := rfl
  rw [hR] at ht
  cases ht
  cases hm

/-- C9, amended: promotion creates the pin.  For every state, every actor and
target that pass `statusChangeCheck` (7-digit id other than the actor's, target
the first record with the id, master access of the target only with master
access of the actor) and every supplied pin `p` with `1000 ≤ p ≤ 9999`:
with choice 1 a target that is not a manager and has pin 0 ends as
manager without master access with pin `p`, and the store is saved; with
choice 3 by an actor with master access a target that has no master access
yet, or has it as a manager with a pin, ends as manager with master access
with pin `p` if its pin was 0 and its previous pin otherwise.  Name, id, pay
and time status of the target and all other records are unchanged. -/
theorem C9_promotion_creates_pin (showPay : Rat → String) (s : System) (a idx : Nat)
    (actor t : employee) (id p : Int) (rest : List (Option Int))
    (ha : s.employees[a]? = some actor) (hlo : 1000000 ≤ id) (hhi : id ≤ 9999999)
    (hne : id ≠ actor.employeeID) (hf : findFirstFrom id s.employees 0 = some idx)
    (ht : s.employees[idx]? = some t)
    (hperm : t.masterStatus = true → actor.masterStatus = true)
    (hp : 1000 ≤ p ∧ p ≤ 9999) :
    (t.isManager = false → t.managerPin = 0 →
      changeStatus showPay s a (some id) '1' (some p :: rest) =
        some (saved showPay s (s.employees.set idx
          ⟨t.name, t.employeeID, t.pay, true, p, false, t.timeStatus⟩))) ∧
    (actor.masterStatus = true →
      (t.masterStatus = true → t.isManager = true ∧ t.managerPin ≠ 0) →
      ∃ w, changeStatus showPay s a (some id) '3' (some p :: rest) = some w ∧
        w.employees = s.employees.set idx
          ⟨t.name, t.employeeID, t.pay, true, if t.managerPin = 0 then p else t.managerPin,
            true, t.timeStatus⟩) ∧
    (∀ x : employee, (s.employees.set idx x).length = s.employees.length ∧
      (s.employees.set idx x)[idx]? = some x ∧
      ∀ j, j ≠ idx → (s.employees.set idx x)[j]? = s.employees[j]?) := by
  have hc := statusChangeCheck_of ha hlo hhi hne hf ht hperm
  have hread : readPin (some p :: rest) = some p := by
    have : ¬(p < 1000 ∨ p > 9999) := by omega
    simp [readPin, this]
  refine ⟨?_, ?_, ?_⟩
  · intro hm hpin
    rw [changeStatus_promote (some p :: rest) hc ha ht hm]
    simp [hpin, hread]
  · intro hma hwf
    cases hm : t.masterStatus with
    | false =>
      rw [changeStatus_grant (some p :: rest) hc ha ht hma hm]
      by_cases hpin : t.managerPin = 0
      · refine ⟨saved showPay s (s.employees.set idx
          ⟨t.name, t.employeeID, t.pay, true, p, true, t.timeStatus⟩), ?_, ?_⟩
        · simp [hpin, hread]
        · simp [saved, hpin]
      · refine ⟨saved showPay s (s.employees.set idx
          ⟨t.name, t.employeeID, t.pay, true, t.managerPin, true, t.timeStatus⟩), ?_, ?_⟩
        · simp [hpin]
        · simp [saved, hpin]
    | true =>
      obtain ⟨hmg, hpin⟩ := hwf hm
      refine ⟨s, changeStatus_denied '3' _ hc ha ht
        (Or.inr (Or.inr (Or.inl ⟨rfl, Or.inr hm⟩))), ?_⟩
      have hEq : (⟨t.name, t.employeeID, t.pay, true,
          if t.managerPin = 0 then p else t.managerPin, true, t.timeStatus⟩ : employee) = t := by
        cases t
        simp_all
      rw [hEq, set_same ht]
  · intro x
    exact ⟨by simp, set_getElem?_self x ht, fun j hj => set_getElem?_other _ _ _ _ hj⟩

/-- Witness of C9 on the example store: Sam (master access) promotes the
associate Blake with pin 4321, and grants master access to the manager Morgan,
who keeps pin 5678, and to the associate Blake, who gets pin 4321. -/
theorem C9_promotion_creates_pin_witness :
    exampleSystem.employees[0]? = some exampleSam ∧
    findFirstFrom 2000002 exampleSystem.employees 0 = some 3 ∧
    exampleSystem.employees[3]? = some exampleBlake ∧
    exampleBlake.isManager = false ∧ exampleBlake.managerPin = 0 ∧
    changeStatus toString exampleSystem 0 (some 2000002) '1' [some 4321] =
      some (saved toString exampleSystem [exampleSam, exampleMorgan, exampleAvery,
        ⟨"Blake", 2000002, 16, true, 4321, false, 1⟩, exampleCasey]) ∧
    (∃ w, changeStatus toString exampleSystem 0 (some 3000002) '3' [some 4321] = some w ∧
      w.employees = [exampleSam, ⟨"Morgan", 3000002, 25, true, 5678, true, 1⟩, exampleAvery,
        exampleBlake, exampleCasey]) ∧
    (∃ w, changeStatus toString exampleSystem 0 (some 2000002) '3' [some 4321] = some w ∧
      w.employees = [exampleSam, exampleMorgan, exampleAvery,
        ⟨"Blake", 2000002, 16, true, 4321, true, 1⟩, exampleCasey]) :=
  ⟨rfl, by decide, rfl, rfl, rfl,
   (C9_promotion_creates_pin toString exampleSystem 0 3 exampleSam exampleBlake 2000002 4321 []
      rfl (by decide) (by decide) (by decide) (by decide) rfl (by decide) (by decide)).1 rfl rfl,
   (C9_promotion_creates_pin toString exampleSystem 0 1 exampleSam exampleMorgan 3000002 4321 []
      rfl (by decide) (by decide) (by decide) (by decide) rfl (by decide) (by decide)).2.1 rfl
      (by decide),
   (C9_promotion_creates_pin toString exampleSystem 0 3 exampleSam exampleBlake 2000002 4321 []
      rfl (by decide) (by decide) (by decide) (by decide) rfl (by decide) (by decide)).2.1 rfl
      (by decide)⟩

/-! ## Role and pin well-formedness is an invariant -/

theorem storeOk_set {l : List employee} {i : Nat} {x : employee} (hl : storeOk l)
    (hx : rolePinOk x) : storeOk (l.set i x) := by
  intro e he
  rcases List.mem_or_eq_of_mem_set he with h | h
  · exact hl e h
  · rw [h]; exact hx

theorem storeOk_append_one {l : List employee} {x : employee} (hl : storeOk l)
    (hx : rolePinOk x) : storeOk (l ++ [x]) := by
  intro e he
  rcases List.mem_append.mp he with h | h
  · exact hl e h
  · rw [List.mem_singleton.mp h]; exact hx

theorem storeOk_eraseIdx {l : List employee} (i : Nat) (hl : storeOk l) :
    storeOk (l.eraseIdx i) :=
  fun e he => hl e (List.mem_of_mem_eraseIdx he)

/-- Every way a time-status transition can return: with the state unchanged, or
with the time status of the record at the position replaced. -/
theorem transition_cases {now : String} {s w : System} {a : Nat}
    (h : clockIn now s a = some w ∨ clockOut now s a = some w ∨
      startMeal now s a = some w ∨ endMeal now s a = some w) :
    w = s ∨ ∃ e status, s.employees[a]? = some e ∧
      w.employees = s.employees.set a
        ⟨e.name, e.employeeID, e.pay, e.isManager, e.managerPin, e.masterStatus, status⟩ := by
  cases he : s.employees[a]? with
  | none =>
    rcases h with h | h | h | h
    · simp [clockIn, he] at h
    · simp [clockOut, he] at h
    · simp [startMeal, he] at h
    · simp [endMeal, he] at h
  | some e =>
    rcases h with h | h | h | h
    · unfold clockIn at h
      simp only [he] at h
      split at h
      · right
        exact ⟨e, 1, rfl, by rw [← Option.some.inj h]; rfl⟩
      · left
        split at h <;> exact (Option.some.inj h).symm
    · unfold clockOut at h
      simp only [he] at h
      split at h
      · right
        exact ⟨e, 0, rfl, by rw [← Option.some.inj h]; rfl⟩
      · left
        exact (Option.some.inj h).symm
    · unfold startMeal at h
      simp only [he] at h
      split at h
      · right
        exact ⟨e, 2, rfl, by rw [← Option.some.inj h]; rfl⟩
      · left
        exact (Option.some.inj h).symm
    · unfold endMeal at h
      simp only [he] at h
      split at h
      · right
        exact ⟨e, 1, rfl, by rw [← Option.some.inj h]; rfl⟩
      · left
        exact (Option.some.inj h).symm

/-- The record `addEmployee` appends is well formed, whatever the actor and
whatever value the local `isManager` held at first. -/
theorem addEmployee_storeOk {showPay : Rat → String} {s w : System} {a : Nat} {name : String}
    {ids : List (Option Int)} {pays : List (Option Rat)} {isManager0 : Bool}
    {mgrInputs mstInputs pins : List (Option Int)}
    (h : addEmployee showPay s a name ids pays isManager0 mgrInputs mstInputs pins = some w)
    (hs : storeOk s.employees) : storeOk w.employees := by
  unfold addEmployee at h
  split at h
  · cases h
  · split at h
    · cases h
    · split at h
      · cases h
      · rename_i actor _
        split at h
        · cases h
        · rename_i isManager hmgr
          split at h
          · cases h
          · rename_i isMaster hmst
            split at h
            · cases h
            · rename_i mgrpin hpin
              simp only [Option.some.injEq] at h
              rw [← h]
              apply storeOk_append_one hs
              refine ⟨?_, ?_, ?_⟩
              · intro hm
                simp only at hm
                subst hm
                cases hb : isManager with
                | true => rfl
                | false => simp [hb] at hmst
              · intro hm
                simp only at hm
                subst hm
                simp at hpin
                exact hpin.symm
              · intro hm
                simp only at hm
                subst hm
                simp at hpin
                exact readPin_range hpin

theorem removeEmployee_storeOk {showPay : Rat → String} {s w : System} {a : Nat}
    {ids : List (Option Int)} (h : removeEmployee showPay s a ids = some w)
    (hs : storeOk s.employees) : storeOk w.employees := by
  induction ids with
  | nil => simp [removeEmployee] at h
  | cons r rest ih =>
    cases r with
    | none => exact ih (by simpa [removeEmployee] using h)
    | some id =>
      unfold removeEmployee at h
      split at h
      · exact ih h
      · split at h
        · cases h
        · split at h
          · rw [← Option.some.inj h]; exact hs
          · split at h
            · exact ih h
            · split at h
              · cases h
              · split at h
                · rw [← Option.some.inj h]; exact hs
                · rw [← Option.some.inj h]
                  exact storeOk_eraseIdx _ hs

theorem changePay_storeOk {showPay : Rat → String} {s w : System} {a : Nat}
    {idIn : Option Int} {payIn : Option Rat} (h : changePay showPay s a idIn payIn = some w)
    (hs : storeOk s.employees) : storeOk w.employees := by
  rcases changePay_cases h with rfl | ⟨_, _, idx, t, newPay, -, -, -, -, ht, -, -, -, rfl⟩
  · exact hs
  · exact storeOk_set hs (hs t (List.getElem?_mem ht))

theorem changeStatus_storeOk {showPay : Rat → String} {s w : System} {a : Nat}
    {idIn : Option Int} {choice : Char} {pins : List (Option Int)}
    (h : changeStatus showPay s a idIn choice pins = some w)
    (hs : storeOk s.employees) : storeOk w.employees := by
  rcases changeStatus_cases h with rfl | ⟨idx, actor, t, p, -, -, ht, hcase⟩
  · exact hs
  · obtain ⟨hmm, hn0, hrange⟩ := hs t (List.getElem?_mem ht)
    have hp : (if t.managerPin = 0 then readPin pins else some t.managerPin) = some p →
        1000 ≤ p ∧ p ≤ 9999 := by
      intro hp
      by_cases hpin : t.managerPin = 0
      · rw [if_pos hpin] at hp
        exact readPin_range hp
      · rw [if_neg hpin] at hp
        cases hp
        cases hm : t.isManager with
        | true => exact hrange hm
        | false => exact absurd (hn0 hm) hpin
    rcases hcase with ⟨-, -, hpe, rfl⟩ | ⟨-, -, -, rfl⟩ | ⟨-, -, -, hpe, rfl⟩ | ⟨-, -, hm, rfl⟩
    · exact storeOk_set hs ⟨by simp, by simp, fun _ => hp hpe⟩
    · exact storeOk_set hs ⟨by simp, by simp, by simp⟩
    · exact storeOk_set hs ⟨by simp, by simp, fun _ => hp hpe⟩
    · exact storeOk_set hs ⟨by simp, by simp, fun _ => hrange (hmm hm)⟩

theorem transition_storeOk {now : String} {s w : System} {a : Nat}
    (h : clockIn now s a = some w ∨ clockOut now s a = some w ∨
      startMeal now s a = some w ∨ endMeal now s a = some w)
    (hs : storeOk s.employees) : storeOk w.employees := by
  rcases transition_cases h with rfl | ⟨e, status, he, hw⟩
  · exact hs
  · rw [hw]
    exact storeOk_set hs (hs e (List.getElem?_mem he))

/-- C10: role and pin well-formedness (`storeOk`: for every record, master
access implies manager, an associate has pin 0, a manager has a pin between
1000 and 9999) holds of the five seed records, and whenever it holds of the
employee list before `addEmployee` (any actor, any initial value of the local
`isManager`), `removeEmployee`, `changePay`, `changeStatus` (any choice) or one
of the four time-status transitions, it holds of the list the call returns. -/
theorem C10_role_pin_invariant :
    storeOk seedEmployees ∧
    ∀ (showPay : Rat → String) (s w : System) (a : Nat), storeOk s.employees →
      (∀ name ids pays isManager0 mgrInputs mstInputs pins,
        addEmployee showPay s a name ids pays isManager0 mgrInputs mstInputs pins = some w →
        storeOk w.employees) ∧
      (∀ ids, removeEmployee showPay s a ids = some w → storeOk w.employees) ∧
      (∀ idIn payIn, changePay showPay s a idIn payIn = some w → storeOk w.employees) ∧
      (∀ idIn choice pins, changeStatus showPay s a idIn choice pins = some w →
        storeOk w.employees) ∧
      (∀ now, clockIn now s a = some w → storeOk w.employees) ∧
      (∀ now, clockOut now s a = some w → storeOk w.employees) ∧
      (∀ now, startMeal now s a = some w → storeOk w.employees) ∧
      (∀ now, endMeal now s a = some w → storeOk w.employees) := by
  refine ⟨by decide, ?_⟩
  intro showPay s w a hs
  refine ⟨?_, ?_, ?_, ?_, ?_, ?_, ?_, ?_⟩
  · intro name ids pays isManager0 mgrInputs mstInputs pins h
    exact addEmployee_storeOk h hs
  · intro ids h
    exact removeEmployee_storeOk h hs
  · intro idIn payIn h
    exact changePay_storeOk h hs
  · intro idIn choice pins h
    exact changeStatus_storeOk h hs
  · intro now h
    exact transition_storeOk (Or.inl h) hs
  · intro now h
    exact transition_storeOk (Or.inr (Or.inl h)) hs
  · intro now h
    exact transition_storeOk (Or.inr (Or.inr (Or.inl h))) hs
  · intro now h
    exact transition_storeOk (Or.inr (Or.inr (Or.inr h))) hs

/-- Witness of C10 on the example store, which is well formed: the stores
after Sam adds the manager Dana with master access and pin 4321, removes
Morgan, changes Blake's pay, promotes Blake, demotes Morgan, and after Avery
clocks in, are well formed. -/
theorem C10_role_pin_invariant_witness :
    storeOk exampleSystem.employees ∧
    (∃ w, addEmployee toString exampleSystem 0 "Dana" [some 5555555] [some 10] false
        [some 1] [some 1] [some 4321] = some w ∧ storeOk w.employees) ∧
    (∃ w, removeEmployee toString exampleSystem 0 [some 3000002] = some w ∧
      storeOk w.employees) ∧
    (∃ w, changePay toString exampleSystem 0 (some 2000002) (some 18) = some w ∧
      storeOk w.employees) ∧
    (∃ w, changeStatus toString exampleSystem 0 (some 2000002) '1' [some 4321] = some w ∧
      storeOk w.employees) ∧
    (∃ w, changeStatus toString exampleSystem 0 (some 3000002) '2' [] = some w ∧
      storeOk w.employees) ∧
    (∃ w, clockIn "t" exampleSystem 2 = some w ∧ storeOk w.employees) :=
  ⟨by decide,
   ⟨_, rfl, (C10_role_pin_invariant.2 toString exampleSystem _ 0 (by decide)).1
      "Dana" [some 5555555] [some 10] false [some 1] [some 1] [some 4321] rfl⟩,
   ⟨_, rfl, (C10_role_pin_invariant.2 toString exampleSystem _ 0 (by decide)).2.1
      [some 3000002] rfl⟩,
   ⟨_, rfl, (C10_role_pin_invariant.2 toString exampleSystem _ 0 (by decide)).2.2.1
      (some 2000002) (some 18) rfl⟩,
   ⟨_, rfl, (C10_role_pin_invariant.2 toString exampleSystem _ 0 (by decide)).2.2.2.1
      (some 2000002) '1' [some 4321] rfl⟩,
   ⟨_, rfl, (C10_role_pin_invariant.2 toString exampleSystem _ 0 (by decide)).2.2.2.1
      (some 3000002) '2' [] rfl⟩,
   ⟨_, rfl, (C10_role_pin_invariant.2 toString exampleSystem _ 2 (by decide)).2.2.2.2.1
      "t" rfl⟩⟩

/-! ## Ids are unique and never change -/

theorem idExists_false {id : Int} {l : List employee} (h : idExists id l = false) :
    ∀ e ∈ l, e.employeeID ≠ id := by
  induction l with
  | nil => intro e he; cases he
  | cons x xs ih =>
    by_cases hx : x.employeeID = id
    · simp [idExists, hx] at h
    · simp only [idExists, hx, if_false] at h
      intro e he
      rcases List.mem_cons.mp he with rfl | he
      · exact hx
      · exact ih h e he

/-- The id loop of `addEmployee` ends with a 7-digit number no record has. -/
theorem readNewId_spec {l : List employee} {ids : List (Option Int)} {id : Int}
    (h : readNewId l ids = some id) :
    1000000 ≤ id ∧ id ≤ 9999999 ∧ ∀ e ∈ l, e.employeeID ≠ id := by
  induction ids with
  | nil => simp [readNewId] at h
  | cons r rest ih =>
    cases r with
    | none => exact ih (by simpa [readNewId] using h)
    | some v =>
      by_cases hr : v < 1000000 ∨ v > 9999999
      · exact ih (by simpa [readNewId, hr] using h)
      · cases hex : idExists v l with
        | true => exact ih (by simpa [readNewId, hr, hex] using h)
        | false =>
          simp [readNewId, hr, hex] at h
          subst h
          exact ⟨by omega, by omega, idExists_false hex⟩

/-- Every way `addEmployee` can return: one record with time status 0 and a
7-digit id no record had is appended, and the store is saved. -/
theorem addEmployee_cases {showPay : Rat → String} {s w : System} {a : Nat} {name : String}
    {ids : List (Option Int)} {pays : List (Option Rat)} {isManager0 : Bool}
    {mgrInputs mstInputs pins : List (Option Int)}
    (h : addEmployee showPay s a name ids pays isManager0 mgrInputs mstInputs pins = some w) :
    ∃ id pay isManager mgrpin isMaster, readNewId s.employees ids = some id ∧
      w = saved showPay s
        (s.employees ++ [⟨name, id, pay, isManager, mgrpin, isMaster, 0⟩]) := by
  unfold addEmployee at h
  split at h
  · cases h
  · rename_i id hid
    split at h
    · cases h
    · rename_i pay _
      split at h
      · cases h
      · split at h
        · cases h
        · rename_i isManager _
          split at h
          · cases h
          · rename_i isMaster _
            split at h
            · cases h
            · rename_i mgrpin _
              exact ⟨id, pay, isManager, mgrpin, isMaster, hid, (Option.some.inj h).symm⟩

/-- Every way `removeEmployee` can return: with the state unchanged, or with
one position of the store erased and the store saved. -/
theorem removeEmployee_cases {showPay : Rat → String} {s w : System} {a : Nat}
    {ids : List (Option Int)} (h : removeEmployee showPay s a ids = some w) :
    w = s ∨ ∃ k, w = saved showPay s (s.employees.eraseIdx k) := by
  induction ids with
  | nil => simp [removeEmployee] at h
  | cons r rest ih =>
    cases r with
    | none => exact ih (by simpa [removeEmployee] using h)
    | some id =>
      unfold removeEmployee at h
      split at h
      · exact ih h
      · split at h
        · cases h
        · split at h
          · exact Or.inl (Option.some.inj h).symm
          · split at h
            · exact ih h
            · rename_i idx _
              split at h
              · cases h
              · split at h
                · exact Or.inl (Option.some.inj h).symm
                · exact Or.inr ⟨idx, (Option.some.inj h).symm⟩

theorem map_id_set {l : List employee} {i : Nat} {t x : employee} (ht : l[i]? = some t)
    (hx : x.employeeID = t.employeeID) :
    (l.set i x).map (fun e => e.employeeID) = l.map (fun e => e.employeeID) := by
  induction l generalizing i with
  | nil => rfl
  | cons y ys ih =>
    cases i with
    | zero =>
      simp at ht
      subst ht
      simp [hx]
    | succ i =>
      simp at ht
      simp [ih ht]

theorem idsOk_of_map_eq {l l2 : List employee}
    (h : l2.map (fun e => e.employeeID) = l.map (fun e => e.employeeID)) (hl : idsOk l) :
    idsOk l2 := by
  refine ⟨?_, ?_⟩
  · unfold distinctIds
    rw [h]
    exact hl.1
  · intro e he
    have hm : e.employeeID ∈ l2.map (fun e => e.employeeID) := List.mem_map_of_mem _ he
    rw [h, List.mem_map] at hm
    obtain ⟨e0, he0, hid⟩ := hm
    rw [← hid]
    exact hl.2 e0 he0

theorem idsOk_eraseIdx {l : List employee} (k : Nat) (hl : idsOk l) : idsOk (l.eraseIdx k) := by
  refine ⟨?_, fun e he => hl.2 e (List.mem_of_mem_eraseIdx he)⟩
  unfold distinctIds
  exact List.Nodup.sublist (List.Sublist.map _ (List.eraseIdx_sublist l k)) hl.1

theorem idsOk_append_one {l : List employee} {x : employee} (hl : idsOk l)
    (hx : 1000000 ≤ x.employeeID ∧ x.employeeID ≤ 9999999)
    (hnew : ∀ e ∈ l, e.employeeID ≠ x.employeeID) : idsOk (l ++ [x]) := by
  refine ⟨?_, ?_⟩
  · unfold distinctIds
    rw [List.map_append, List.nodup_append]
    refine ⟨hl.1, by simp, ?_⟩
    intro i hi hi2
    simp only [List.map_cons, List.map_nil, List.mem_singleton] at hi2
    rw [List.mem_map] at hi
    obtain ⟨e, he, hid⟩ := hi
    exact hnew e he (hid.trans hi2)
  · intro e he
    rcases List.mem_append.mp he with h | h
    · exact hl.2 e h
    · rw [List.mem_singleton.mp h]; exact hx

/-- C11: employee ids are unique and immutable.  The five seed records have
pairwise distinct 7-digit ids.  From every store with pairwise distinct
7-digit ids, each operation returns a store with pairwise distinct 7-digit
ids, and the records keep their ids: `addEmployee` appends one record to the
old list, `removeEmployee` returns the old list or the old list with one
position erased, and `changePay`, `changeStatus` and the four time-status
transitions return a list with the same ids at the same positions. -/
theorem C11_ids_unique_immutable :
    idsOk seedEmployees ∧
    ∀ (showPay : Rat → String) (s w : System) (a : Nat), idsOk s.employees →
      (∀ name ids pays isManager0 mgrInputs mstInputs pins,
        addEmployee showPay s a name ids pays isManager0 mgrInputs mstInputs pins = some w →
        idsOk w.employees ∧ ∃ e, w.employees = s.employees ++ [e]) ∧
      (∀ ids, removeEmployee showPay s a ids = some w →
        idsOk w.employees ∧
        (w.employees = s.employees ∨ ∃ k, w.employees = s.employees.eraseIdx k)) ∧
      (∀ idIn payIn, changePay showPay s a idIn payIn = some w →
        idsOk w.employees ∧
        w.employees.map (fun e => e.employeeID) = s.employees.map (fun e => e.employeeID)) ∧
      (∀ idIn choice pins, changeStatus showPay s a idIn choice pins = some w →
        idsOk w.employees ∧
        w.employees.map (fun e => e.employeeID) = s.employees.map (fun e => e.employeeID)) ∧
      (∀ now, clockIn now s a = some w ∨ clockOut now s a = some w ∨
          startMeal now s a = some w ∨ endMeal now s a = some w →
        idsOk w.employees ∧
        w.employees.map (fun e => e.employeeID) = s.employees.map (fun e => e.employeeID)) := by
  refine ⟨by decide, ?_⟩
  intro showPay s w a hs
  have hkeep : w.employees.map (fun e => e.employeeID) = s.employees.map (fun e => e.employeeID) →
      idsOk w.employees ∧
      w.employees.map (fun e => e.employeeID) = s.employees.map (fun e => e.employeeID) :=
    fun h => ⟨idsOk_of_map_eq h hs, h⟩
  refine ⟨?_, ?_, ?_, ?_, ?_⟩
  · intro name ids pays isManager0 mgrInputs mstInputs pins h
    obtain ⟨id, pay, isManager, mgrpin, isMaster, hid, rfl⟩ := addEmployee_cases h
    obtain ⟨hlo, hhi, hnew⟩ := readNewId_spec hid
    exact ⟨idsOk_append_one hs ⟨hlo, hhi⟩ hnew, _, rfl⟩
  · intro ids h
    rcases removeEmployee_cases h with rfl | ⟨k, rfl⟩
    · exact ⟨hs, Or.inl rfl⟩
    · exact ⟨idsOk_eraseIdx k hs, Or.inr ⟨k, rfl⟩⟩
  · intro idIn payIn h
    apply hkeep
    rcases changePay_cases h with rfl | ⟨_, _, idx, t, newPay, -, -, -, -, ht, -, -, -, rfl⟩
    · rfl
    · exact map_id_set ht rfl
  · intro idIn choice pins h
    apply hkeep
    rcases changeStatus_cases h with rfl | ⟨idx, actor, t, p, -, -, ht, hcase⟩
    · rfl
    · rcases hcase with ⟨-, -, -, rfl⟩ | ⟨-, -, -, rfl⟩ | ⟨-, -, -, -, rfl⟩ | ⟨-, -, -, rfl⟩ <;>
        exact map_id_set ht rfl
  · intro now h
    apply hkeep
    rcases transition_cases h with rfl | ⟨e, status, he, hw⟩
    · rfl
    · rw [hw]
      exact map_id_set he rfl

/-- Witness of C11 on the example store, whose ids are pairwise distinct
7-digit numbers: the stores after Morgan adds Dana with id 5555555, after Sam
removes Morgan, changes Blake's pay or promotes Blake, and after Avery clocks
in have pairwise distinct 7-digit ids. -/
theorem C11_ids_unique_immutable_witness :
    idsOk exampleSystem.employees ∧
    (∃ w, addEmployee toString exampleSystem 1 "Dana" [some 3000001, some 5555555] [some 10]
        false [] [] [] = some w ∧ idsOk w.employees) ∧
    (∃ w, removeEmployee toString exampleSystem 0 [some 3000002] = some w ∧
      idsOk w.employees) ∧
    (∃ w, changePay toString exampleSystem 0 (some 2000002) (some 18) = some w ∧
      idsOk w.employees) ∧
    (∃ w, changeStatus toString exampleSystem 0 (some 2000002) '1' [some 4321] = some w ∧
      idsOk w.employees) ∧
    (∃ w, clockIn "t" exampleSystem 2 = some w ∧ idsOk w.employees) :=
  ⟨by decide,
   ⟨_, rfl, ((C11_ids_unique_immutable.2 toString exampleSystem _ 1 (by decide)).1
      "Dana" [some 3000001, some 5555555] [some 10] false [] [] [] rfl).1⟩,
   ⟨_, rfl, ((C11_ids_unique_immutable.2 toString exampleSystem _ 0 (by decide)).2.1
      [some 3000002] rfl).1⟩,
   ⟨_, rfl, ((C11_ids_unique_immutable.2 toString exampleSystem _ 0 (by decide)).2.2.1
      (some 2000002) (some 18) rfl).1⟩,
   ⟨_, rfl, ((C11_ids_unique_immutable.2 toString exampleSystem _ 0 (by decide)).2.2.2.1
      (some 2000002) '1' [some 4321] rfl).1⟩,
   ⟨_, rfl, ((C11_ids_unique_immutable.2 toString exampleSystem _ 2 (by decide)).2.2.2.2
      "t" (Or.inl rfl)).1⟩⟩

/-! ## The time status stays one of 0, 1, 2 -/

/-- A time-status transition that changes the state stores 0, 1 or 2. -/
theorem transition_cases_status {now : String} {s w : System} {a : Nat}
    (h : clockIn now s a = some w ∨ clockOut now s a = some w ∨
      startMeal now s a = some w ∨ endMeal now s a = some w) :
    w = s ∨ ∃ e status, s.employees[a]? = some e ∧
      (status = 0 ∨ status = 1 ∨ status = 2) ∧
      w.employees = s.employees.set a
        ⟨e.name, e.employeeID, e.pay, e.isManager, e.managerPin, e.masterStatus, status⟩ := by
  cases he : s.employees[a]? with
  | none =>
    rcases h with h | h | h | h
    · simp [clockIn, he] at h
    · simp [clockOut, he] at h
    · simp [startMeal, he] at h
    · simp [endMeal, he] at h
  | some e =>
    rcases h with h | h | h | h
    · unfold clockIn at h
      simp only [he] at h
      split at h
      · right
        exact ⟨e, 1, rfl, by decide, by rw [← Option.some.inj h]; rfl⟩
      · left
        split at h <;> exact (Option.some.inj h).symm
    · unfold clockOut at h
      simp only [he] at h
      split at h
      · right
        exact ⟨e, 0, rfl, by decide, by rw [← Option.some.inj h]; rfl⟩
      · left
        exact (Option.some.inj h).symm
    · unfold startMeal at h
      simp only [he] at h
      split at h
      · right
        exact ⟨e, 2, rfl, by decide, by rw [← Option.some.inj h]; rfl⟩
      · left
        exact (Option.some.inj h).symm
    · unfold endMeal at h
      simp only [he] at h
      split at h
      · right
        exact ⟨e, 1, rfl, by decide, by rw [← Option.some.inj h]; rfl⟩
      · left
        exact (Option.some.inj h).symm

theorem statusOk_set {l : List employee} {i : Nat} {x : employee} (hl : statusOk l)
    (hx : x.timeStatus = 0 ∨ x.timeStatus = 1 ∨ x.timeStatus = 2) : statusOk (l.set i x) := by
  intro e he
  rcases List.mem_or_eq_of_mem_set he with h | h
  · exact hl e h
  · rw [h]; exact hx

/-- C12: the time status only takes the values 0, 1, 2.  The seed records have
a time status among 0, 1, 2; the record `addEmployee` appends has time status
0; and from every store whose time statuses are among 0, 1, 2 each of
`clockIn`, `clockOut`, `startMeal`, `endMeal`, `addEmployee`, `removeEmployee`,
`changePay` and `changeStatus` returns a store whose time statuses are among
0, 1, 2. -/
theorem C12_time_status_values :
    statusOk seedEmployees ∧
    ∀ (showPay : Rat → String) (s w : System) (a : Nat),
      (∀ name ids pays isManager0 mgrInputs mstInputs pins,
        addEmployee showPay s a name ids pays isManager0 mgrInputs mstInputs pins = some w →
        ∃ e, w.employees = s.employees ++ [e] ∧ e.timeStatus = 0) ∧
      (statusOk s.employees →
        (∀ name ids pays isManager0 mgrInputs mstInputs pins,
          addEmployee showPay s a name ids pays isManager0 mgrInputs mstInputs pins = some w →
          statusOk w.employees) ∧
        (∀ ids, removeEmployee showPay s a ids = some w → statusOk w.employees) ∧
        (∀ idIn payIn, changePay showPay s a idIn payIn = some w → statusOk w.employees) ∧
        (∀ idIn choice pins, changeStatus showPay s a idIn choice pins = some w →
          statusOk w.employees) ∧
        (∀ now, clockIn now s a = some w ∨ clockOut now s a = some w ∨
            startMeal now s a = some w ∨ endMeal now s a = some w → statusOk w.employees)) := by
  refine ⟨by decide, ?_⟩
  intro showPay s w a
  refine ⟨?_, ?_⟩
  · intro name ids pays isManager0 mgrInputs mstInputs pins h
    obtain ⟨id, pay, isManager, mgrpin, isMaster, -, rfl⟩ := addEmployee_cases h
    exact ⟨_, rfl, rfl⟩
  intro hs
  refine ⟨?_, ?_, ?_, ?_, ?_⟩
  · intro name ids pays isManager0 mgrInputs mstInputs pins h
    obtain ⟨id, pay, isManager, mgrpin, isMaster, -, rfl⟩ := addEmployee_cases h
    intro e he
    rcases List.mem_append.mp he with h1 | h1
    · exact hs e h1
    · rw [List.mem_singleton.mp h1]; exact Or.inl rfl
  · intro ids h
    rcases removeEmployee_cases h with rfl | ⟨k, rfl⟩
    · exact hs
    · exact fun e he => hs e (List.mem_of_mem_eraseIdx he)
  · intro idIn payIn h
    rcases changePay_cases h with rfl | ⟨_, _, idx, t, newPay, -, -, -, -, ht, -, -, -, rfl⟩
    · exact hs
    · exact statusOk_set hs (hs t (List.getElem?_mem ht))
  · intro idIn choice pins h
    rcases changeStatus_cases h with rfl | ⟨idx, actor, t, p, -, -, ht, hcase⟩
    · exact hs
    · have hts := hs t (List.getElem?_mem ht)
      rcases hcase with ⟨-, -, -, rfl⟩ | ⟨-, -, -, rfl⟩ | ⟨-, -, -, -, rfl⟩ | ⟨-, -, -, rfl⟩ <;>
        exact statusOk_set hs hts
  · intro now h
    rcases transition_cases_status h with rfl | ⟨e, status, he, hst, hw⟩
    · exact hs
    · rw [hw]
      exact statusOk_set hs hst

/-- Witness of C12 on the example store, whose time statuses are 1, 1, 0, 1, 2:
after Avery clocks in, Blake starts a meal, Casey ends the meal, Morgan adds
Dana and Sam removes Morgan the time statuses are among 0, 1, 2. -/
theorem C12_time_status_values_witness :
    statusOk exampleSystem.employees ∧
    (∃ w, clockIn "t" exampleSystem 2 = some w ∧ statusOk w.employees) ∧
    (∃ w, startMeal "t" exampleSystem 3 = some w ∧ statusOk w.employees) ∧
    (∃ w, endMeal "t" exampleSystem 4 = some w ∧ statusOk w.employees) ∧
    (∃ w, addEmployee toString exampleSystem 1 "Dana" [some 5555555] [some 10]
        false [] [] [] = some w ∧ statusOk w.employees) ∧
    (∃ w, removeEmployee toString exampleSystem 0 [some 3000002] = some w ∧
      statusOk w.employees) :=
  ⟨by decide,
   ⟨_, rfl, (C12_time_status_values.2 toString exampleSystem _ 2).2 (by decide) |>.2.2.2.2
      "t" (Or.inl rfl)⟩,
   ⟨_, rfl, (C12_time_status_values.2 toString exampleSystem _ 3).2 (by decide) |>.2.2.2.2
      "t" (Or.inr (Or.inr (Or.inl rfl)))⟩,
   ⟨_, rfl, (C12_time_status_values.2 toString exampleSystem _ 4).2 (by decide) |>.2.2.2.2
      "t" (Or.inr (Or.inr (Or.inr rfl)))⟩,
   ⟨_, rfl, (C12_time_status_values.2 toString exampleSystem _ 1).2 (by decide) |>.1
      "Dana" [some 5555555] [some 10] false [] [] [] rfl⟩,
   ⟨_, rfl, (C12_time_status_values.2 toString exampleSystem _ 0).2 (by decide) |>.2.1
      [some 3000002] rfl⟩⟩

/-! ## Loading `employees.txt`: lines with too few fields -/

/-- C14, evaluated where it fails.  A line with four separators (five
fields) is not skipped: after the fifth search gives `npos`, the sixth starts
at `npos + 1 = 0` and finds the first separator again, so the test
`p[5] == npos` lets the line through and a record is pushed back, built from
the fields read twice.  The same happens for a line with three separators.
When the name is not a number, `stoi` throws on it and the lines that follow
are never read.  Lines with no, one, two or five separators are skipped and
the next line is read. -/
theorem C14_short_line_not_skipped :
    loadEmployees stodWhole "1|2000001|15|1|1234\n" =
      some [⟨"1", 2000001, 15, true, 1234, true, 2000001⟩] ∧
    loadEmployees stodWhole "7|2000001|15|1\n" = some [⟨"7", 2000001, 15, true, 7, true, 15⟩] ∧
    loadEmployees stodWhole "Bob|2000001|15|1|1234\nAvery|2000001|15|0|0|0|0\n" = none ∧
    loadEmployees stodWhole "x\na|b\na|b|c\na|b|c|d|e|f\nAvery|2000001|15|0|0|0|0\n" =
      some [exampleAvery] := by
  refine ⟨by decide, by decide, by decide, by decide⟩

/-! ## Facts about the text functions -/

theorem startsWith_single (c x : Char) (xs : List Char) :
    startsWith [c] (x :: xs) = (c == x) := by
  simp [startsWith]

/-- Searching one character: it is found right after a run that lacks it. -/
theorem findFrom_single {c : Char} {a : List Char} (r : List Char) (i : Nat)
    (h : c ∉ a) : findFrom [c] (a ++ c :: r) i = i + a.length := by
  induction a generalizing i with
  | nil => simp [findFrom, startsWith]
  | cons x xs ih =>
    have hx : c ≠ x := fun hEq => h (by rw [hEq]; exact List.mem_cons_self _ _)
    have hxs : c ∉ xs := fun hm => h (List.mem_cons_of_mem _ hm)
    simp only [List.cons_append, findFrom, startsWith_single, List.append_eq]
    rw [if_neg (by simpa using hx), ih _ hxs]
    simp only [List.length_cons]
    omega

/-- Searching one character in a text that lacks it gives `npos`. -/
theorem findFrom_single_absent {c : Char} {a : List Char} (i : Nat) (h : c ∉ a) :
    findFrom [c] a i = npos := by
  induction a generalizing i with
  | nil => rfl
  | cons x xs ih =>
    have hx : c ≠ x := fun hEq => h (by rw [hEq]; exact List.mem_cons_self _ _)
    have hxs : c ∉ xs := fun hm => h (List.mem_cons_of_mem _ hm)
    simp only [findFrom, startsWith_single]
    rw [if_neg (by simpa using hx), ih _ hxs]

theorem find_single_of_drop {s a r : List Char} {c : Char} {pos : Nat}
    (hd : s.drop pos = a ++ c :: r) (h : c ∉ a) : find s [c] pos = pos + a.length := by
  unfold find
  rw [hd, findFrom_single r pos h]

theorem drop_le_of_ne_nil {s : List Char} {pos : Nat} (h : s.drop pos ≠ []) :
    pos < s.length := by
  rcases Nat.lt_or_ge pos s.length with hlt | hge
  · exact hlt
  · exact absurd (List.drop_eq_nil_of_le hge) h

theorem substr_of_drop {s a r : List Char} {pos : Nat} (hd : s.drop pos = a ++ r)
    (hpos : pos ≤ s.length) : substr s pos a.length = some a := by
  unfold substr
  rw [if_neg (by omega), hd]
  simp

theorem substr_rest {s a : List Char} {pos : Nat} (hd : s.drop pos = a)
    (hpos : pos ≤ s.length) (hlen : a.length ≤ npos) : substr s pos npos = some a := by
  unfold substr
  rw [if_neg (by omega), hd, List.take_of_length_le hlen]

theorem drop_after {s a r : List Char} {c : Char} {pos : Nat}
    (hd : s.drop pos = a ++ c :: r) : s.drop (pos + a.length + 1) = r := by
  have h1 : s.drop (pos + a.length + 1) = (s.drop pos).drop (a.length + 1) := by
    rw [List.drop_drop]
    congr 1
  rw [h1, hd]
  have h2 : a ++ c :: r = (a ++ [c]) ++ r := by simp
  rw [h2]
  have h3 : a.length + 1 = (a ++ [c]).length := by simp
  rw [h3, List.drop_left]

/-- The line loop: a run without a line break, followed by a line break, is
the next line. -/
theorem getlines_line {a : List Char} (cur rest : List Char) (h : '\n' ∉ a) :
    getlines cur (a ++ '\n' :: rest) = (cur ++ a) :: getlines [] rest := by
  induction a generalizing cur with
  | nil => simp [getlines]
  | cons x xs ih =>
    have hx : x ≠ '\n' := fun hEq => h (by rw [hEq]; exact List.mem_cons_self _ _)
    have hxs : '\n' ∉ xs := fun hm => h (List.mem_cons_of_mem _ hm)
    simp only [List.cons_append, getlines, hx, if_false, List.append_eq]
    rw [ih _ hxs]
    simp

/-! ## `stoi` reads back what `ostream << int` writes -/

theorem digitsValue_append (a b : List Char) (acc : Nat) :
    digitsValue (a ++ b) acc = digitsValue b (digitsValue a acc) := by
  induction a generalizing acc with
  | nil => rfl
  | cons x xs ih => simp only [List.cons_append, digitsValue, List.append_eq, ih]

theorem digitChar_spec (d : Nat) (h : d < 10) :
    (Nat.digitChar d).isDigit = true ∧ (Nat.digitChar d).toNat - 48 = d := by
  interval_cases d <;> exact ⟨by decide, by decide⟩

/-- The digits `Nat.toDigitsCore` puts in front of `ds` are decimal digits
that stand for `n`. -/
theorem toDigitsCore_spec (fuel n : Nat) (ds : List Char) (h : n < fuel) :
    ∃ pre, Nat.toDigitsCore 10 fuel n ds = pre ++ ds ∧ pre ≠ [] ∧
      (∀ c ∈ pre, c.isDigit = true) ∧
      ∀ acc, digitsValue pre acc = acc * 10 ^ pre.length + n := by
  induction fuel generalizing n ds with
  | zero => omega
  | succ fuel ih =>
    obtain ⟨hd1, hd2⟩ := digitChar_spec (n % 10) (Nat.mod_lt _ (by decide))
    by_cases hq : n / 10 = 0
    · refine ⟨[Nat.digitChar (n % 10)], ?_, by simp, ?_, ?_⟩
      · simp [Nat.toDigitsCore, hq]
      · intro c hc
        rw [List.mem_singleton.mp hc]
        exact hd1
      · intro acc
        simp only [digitsValue, hd2, List.length_singleton, pow_one]
        omega
    · have hlt : n / 10 < fuel := by omega
      obtain ⟨pre, hpre, hne, hall, hval⟩ := ih (n / 10) (Nat.digitChar (n % 10) :: ds) hlt
      refine ⟨pre ++ [Nat.digitChar (n % 10)], ?_, by simp, ?_, ?_⟩
      · simp [Nat.toDigitsCore, hq, hpre]
      · intro c hc
        rcases List.mem_append.mp hc with h1 | h1
        · exact hall c h1
        · rw [List.mem_singleton.mp h1]
          exact hd1
      · intro acc
        rw [digitsValue_append, hval acc]
        simp only [digitsValue, hd2, List.length_append, List.length_singleton, pow_succ]
        have := Nat.div_add_mod n 10
        nlinarith [this]

theorem toDigits_spec (n : Nat) :
    Nat.toDigits 10 n ≠ [] ∧ (∀ c ∈ Nat.toDigits 10 n, c.isDigit = true) ∧
      digitsValue (Nat.toDigits 10 n) 0 = n := by
  obtain ⟨pre, hpre, hne, hall, hval⟩ := toDigitsCore_spec (n + 1) n [] (Nat.lt_succ_self n)
  have hEq : Nat.toDigits 10 n = pre := by
    unfold Nat.toDigits
    rw [hpre, List.append_nil]
  rw [hEq]
  exact ⟨hne, hall, by simpa using hval 0⟩

theorem isDigit_facts {c : Char} (h : c.isDigit = true) :
    isSpace c = false ∧ c ≠ '-' ∧ c ≠ '+' ∧ c ≠ '|' ∧ c ≠ '\n' := by
  refine ⟨?_, ?_, ?_, ?_, ?_⟩
  · unfold isSpace
    simp only [Bool.or_eq_false_iff, beq_eq_false_iff_ne]
    refine ⟨⟨⟨⟨⟨?_, ?_⟩, ?_⟩, ?_⟩, ?_⟩, ?_⟩ <;>
      · rintro rfl
        exact absurd h (by decide)
  all_goals
    rintro rfl
    exact absurd h (by decide)

theorem takeWhile_all {p : Char → Bool} {l : List Char} (h : ∀ c ∈ l, p c = true) :
    l.takeWhile p = l := by
  induction l with
  | nil => rfl
  | cons x xs ih =>
    rw [List.takeWhile_cons, h x (List.mem_cons_self _ _),
      if_pos rfl, ih (fun c hc => h c (List.mem_cons_of_mem _ hc))]

/-- `stoi` on a run of digits. -/
theorem stoi_digits {ds : List Char} (hne : ds ≠ []) (hall : ∀ c ∈ ds, c.isDigit = true)
    (hr : digitsValue ds 0 ≤ 2147483647) : stoi ds = some (digitsValue ds 0 : Int) := by
  cases ds with
  | nil => exact absurd rfl hne
  | cons x xs =>
    obtain ⟨hsp, hm, hp, -, -⟩ := isDigit_facts (hall x (List.mem_cons_self _ _))
    have h1 : (x :: xs).dropWhile isSpace = x :: xs := by
      rw [List.dropWhile_cons, hsp]
      simp
    unfold stoi
    simp only [h1, List.head?_cons, Option.some.injEq, hm, hp, or_self, if_false,
      takeWhile_all hall]
    rw [if_neg (by simp)]
    have : ¬(((digitsValue (x :: xs) 0 : Nat) : Int) < -2147483648 ∨
        2147483647 < ((digitsValue (x :: xs) 0 : Nat) : Int)) := by omega
    simp only [this, if_false]

/-- `stoi` on a minus sign and a run of digits. -/
theorem stoi_neg_digits {ds : List Char} (hne : ds ≠ []) (hall : ∀ c ∈ ds, c.isDigit = true)
    (hr : digitsValue ds 0 ≤ 2147483648) :
    stoi ('-' :: ds) = some (-(digitsValue ds 0 : Int)) := by
  have h1 : ('-' :: ds).dropWhile isSpace = '-' :: ds := by
    rw [List.dropWhile_cons]
    simp [isSpace]
  unfold stoi
  simp only [h1, List.head?_cons, true_or, if_true, List.tail_cons, takeWhile_all hall]
  rw [if_neg hne]
  have : ¬(-((digitsValue ds 0 : Nat) : Int) < -2147483648 ∨
      2147483647 < -((digitsValue ds 0 : Nat) : Int)) := by omega
  simp only [this, if_false]

/-- The characters `ostream << int` writes: the digits, after a minus sign for
a negative number. -/
theorem toString_int_toList (n : Int) :
    (toString n).toList =
      if n < 0 then '-' :: Nat.toDigits 10 n.natAbs else Nat.toDigits 10 n.toNat := by
  cases n with
  | ofNat m =>
    have : ¬((Int.ofNat m) < 0) := by simp
    rw [if_neg this]
    rfl
  | negSucc m =>
    have : (Int.negSucc m) < 0 := Int.negSucc_lt_zero m
    rw [if_pos this]
    rfl

/-- `stoi` reads back an `int` from the text `ostream << int` wrote. -/
theorem stoi_toString (n : Int) (hlo : -2147483648 ≤ n) (hhi : n ≤ 2147483647) :
    stoi (toString n).toList = some n := by
  rw [toString_int_toList]
  by_cases hn : n < 0
  · rw [if_pos hn]
    obtain ⟨hne, hall, hval⟩ := toDigits_spec n.natAbs
    rw [stoi_neg_digits hne hall (by rw [hval]; omega), hval]
    congr 1
    omega
  · rw [if_neg hn]
    obtain ⟨hne, hall, hval⟩ := toDigits_spec n.toNat
    rw [stoi_digits hne hall (by rw [hval]; omega), hval]
    congr 1
    omega

/-- The text of an `int` holds no separator and no line break. -/
theorem toString_int_chars (n : Int) :
    '|' ∉ (toString n).toList ∧ '\n' ∉ (toString n).toList := by
  rw [toString_int_toList]
  have key : ∀ m : Nat, '|' ∉ Nat.toDigits 10 m ∧ '\n' ∉ Nat.toDigits 10 m := by
    intro m
    obtain ⟨-, hall, -⟩ := toDigits_spec m
    exact ⟨fun h => (isDigit_facts (hall _ h)).2.2.2.1 rfl,
      fun h => (isDigit_facts (hall _ h)).2.2.2.2 rfl⟩
  by_cases hn : n < 0
  · rw [if_pos hn]
    constructor
    · intro h
      rcases List.mem_cons.mp h with h1 | h1
      · exact absurd h1 (by decide)
      · exact (key _).1 h1
    · intro h
      rcases List.mem_cons.mp h with h1 | h1
      · exact absurd h1 (by decide)
      · exact (key _).2 h1
  · rw [if_neg hn]
    exact key _

/-! ## Loading a line of seven fields -/

theorem sizeAdd_small (p k : Nat) (h : p + k < 18446744073709551616) : sizeAdd p k = p + k := by
  unfold sizeAdd
  exact Nat.mod_eq_of_lt h

theorem sizeSub_small (q p : Nat) (hpq : p ≤ q) (hq : q < 18446744073709551616) :
    sizeSub q p = q - p := by
  unfold sizeSub
  rw [Nat.mod_eq_of_lt hq, Nat.mod_eq_of_lt (Nat.lt_of_le_of_lt hpq hq)]
  have h1 : q + 18446744073709551616 - p = (q - p) + 18446744073709551616 := by omega
  rw [h1, Nat.add_mod_right]
  exact Nat.mod_eq_of_lt (by omega)

theorem sizeSub_field (p len : Nat) (hq : p + 1 + len < 18446744073709551616) :
    sizeSub (sizeSub (p + 1 + len) p) 1 = len := by
  rw [sizeSub_small _ _ (by omega) hq, sizeSub_small _ _ (by omega) (by omega)]
  omega

theorem drop_length_bound {s a r : List Char} {c : Char} {pos : Nat}
    (hd : s.drop pos = a ++ c :: r) : pos + a.length + 1 + r.length = s.length := by
  have h := congrArg List.length hd
  simp only [List.length_drop, List.length_append, List.length_cons] at h
  omega

/-- One field that ends with the separator `c`, starting right after the
position `prev`: the next search finds its end, the `substr` call of the
loader cuts it out, and the rest of the line follows. -/
theorem field_step {s a r : List Char} {c : Char} {prev : Nat}
    (hd : s.drop (prev + 1) = a ++ c :: r) (h : c ∉ a) (hlen : s.length < npos) :
    find s [c] (prev + 1) = prev + 1 + a.length ∧
    sizeAdd (prev + 1 + a.length) 1 = prev + 1 + a.length + 1 ∧
    prev + 1 + a.length ≠ npos ∧
    substr s (prev + 1) (sizeSub (sizeSub (prev + 1 + a.length) prev) 1) = some a ∧
    s.drop (prev + 1 + a.length + 1) = r := by
  have hb := drop_length_bound hd
  unfold npos at hlen
  refine ⟨find_single_of_drop hd h, sizeAdd_small _ _ (by omega), by unfold npos; omega, ?_,
    drop_after hd⟩
  rw [sizeSub_field _ _ (by omega)]
  exact substr_of_drop hd (by omega)

/-- The last field: what follows the separator that ends the field before. -/
theorem last_field_step {s a r : List Char} {c : Char} {prev : Nat}
    (hd : s.drop (prev + 1) = a ++ c :: r) (hlen : s.length < npos) :
    substr s (prev + 1 + a.length + 1) npos = some r := by
  have hb := drop_length_bound hd
  unfold npos at hlen
  exact substr_rest (drop_after hd) (by omega) (by unfold npos; omega)

/-- The first field, which starts the line. -/
theorem first_field_step {s a r : List Char} {c : Char}
    (hd : s = a ++ c :: r) (h : c ∉ a) (hlen : s.length < npos) :
    find s [c] 0 = a.length ∧ sizeAdd a.length 1 = a.length + 1 ∧
    substr s 0 a.length = some a ∧ s.drop (a.length + 1) = r := by
  have hd0 : s.drop 0 = a ++ c :: r := by rw [List.drop_zero, hd]
  have hb := drop_length_bound hd0
  unfold npos at hlen
  have hf := find_single_of_drop hd0 h
  have hdr := drop_after hd0
  rw [Nat.zero_add] at hf hdr
  exact ⟨hf, sizeAdd_small _ _ (by omega), substr_of_drop hd0 (Nat.zero_le _), hdr⟩

/-- The loop body of `loadEmployees` on a line of seven fields, the first six
of them free of the separator: the fields are cut out as they stand and
converted. -/
theorem loadLine_fields (stod : String → Option Rat) (line name f1 f2 f3 f4 f5 f6 : List Char)
    (hline : line = name ++ '|' :: (f1 ++ '|' :: (f2 ++ '|' :: (f3 ++ '|' :: (f4 ++ '|' ::
      (f5 ++ '|' :: f6))))))
    (hn : '|' ∉ name) (h1 : '|' ∉ f1) (h2 : '|' ∉ f2) (h3 : '|' ∉ f3) (h4 : '|' ∉ f4)
    (h5 : '|' ∉ f5) (hlen : line.length < npos) :
    loadLine stod line =
      (stoi f1).bind fun id =>
      (stod (String.mk f2)).bind fun pay =>
      (stoi f3).bind fun mgr =>
      (stoi f4).bind fun pin =>
      (stoi f5).bind fun master =>
      (stoi f6).bind fun status =>
      some (some ⟨String.mk name, id, pay, decide (mgr ≠ 0), pin, decide (master ≠ 0),
        status⟩) := by
  obtain ⟨p0, a0, t0, d1⟩ := first_field_step hline hn hlen
  obtain ⟨p1, a1, -, t1, d2⟩ := field_step d1 h1 hlen
  obtain ⟨p2, a2, -, t2, d3⟩ := field_step d2 h2 hlen
  obtain ⟨p3, a3, -, t3, d4⟩ := field_step d3 h3 hlen
  obtain ⟨p4, a4, -, t4, d5⟩ := field_step d4 h4 hlen
  obtain ⟨p5, a5, hne, t5, d6⟩ := field_step d5 h5 hlen
  have t6 := last_field_step d5 hlen
  unfold loadLine
  simp only [p0, a0, p1, a1, p2, a2, p3, a3, p4, a4, p5, a5, hne, if_false,
    t0, t1, t2, t3, t4, t5, t6, Option.some_bind]

/-! ## Round trip of the employee store -/

theorem employeeLine_toList (showPay : Rat → String) (e : employee) :
    (employeeLine showPay e).toList = employeeLineChars showPay e ++ '\n' :: [] := by
  unfold employeeLine employeeLineChars
  simp only [String.toList, String.data_append, List.append_assoc]
  simp

theorem saveEmployees_toList (showPay : Rat → String) (e : employee) (es : List employee) :
    (saveEmployees showPay (e :: es)).toList =
      employeeLineChars showPay e ++ '\n' :: (saveEmployees showPay es).toList := by
  have h : (saveEmployees showPay (e :: es)).toList =
      (employeeLine showPay e).toList ++ (saveEmployees showPay es).toList := by
    simp only [saveEmployees, String.toList, String.data_append]
  rw [h, employeeLine_toList]
  simp

theorem showBool_chars (b : Bool) :
    '|' ∉ (showBool b).toList ∧ '\n' ∉ (showBool b).toList ∧
    stoi (showBool b).toList = some (if b then 1 else 0) := by
  cases b <;> exact ⟨by decide, by decide, by decide⟩

/-- The loop body of `loadEmployees` gives back a loadable record from its
line. -/
theorem loadLine_employeeLine (showPay : Rat → String) (stod : String → Option Rat)
    (e : employee) (h : loadable showPay stod e) :
    loadLine stod (employeeLineChars showPay e) = some (some e) := by
  obtain ⟨hn1, -, hp1, -, hstod, hid, hpin, hst, hlen⟩ := h
  have hl : (employeeLineChars showPay e).length < npos := by
    have h1 := congrArg List.length (employeeLine_toList showPay e)
    simp only [List.length_append, List.length_cons, List.length_nil] at h1
    have h2 : (employeeLine showPay e).toList.length = (employeeLine showPay e).length := rfl
    omega
  rw [loadLine_fields stod (employeeLineChars showPay e) e.name.toList
    (toString e.employeeID).toList (showPay e.pay).toList (showBool e.isManager).toList
    (toString e.managerPin).toList (showBool e.masterStatus).toList
    (toString e.timeStatus).toList rfl hn1 (toString_int_chars _).1 hp1
    (showBool_chars _).1 (toString_int_chars _).1 (showBool_chars _).1 hl]
  rw [stoi_toString _ hid.1 hid.2, stoi_toString _ hpin.1 hpin.2, stoi_toString _ hst.1 hst.2,
    (showBool_chars _).2.2, (showBool_chars _).2.2]
  have hs : stod (String.mk (showPay e.pay).toList) = some e.pay := hstod
  rw [hs]
  simp only [Option.some_bind]
  cases e with
  | mk name id pay mgr pin master status =>
    cases mgr <;> cases master <;> rfl

theorem employeeLineChars_no_newline (showPay : Rat → String) (stod : String → Option Rat)
    (e : employee) (h : loadable showPay stod e) : '\n' ∉ employeeLineChars showPay e := by
  obtain ⟨-, hn2, -, hp2, -⟩ := h
  unfold employeeLineChars
  simp only [List.mem_append, List.mem_cons, not_or]
  exact ⟨hn2, by decide, (toString_int_chars _).2, by decide, hp2, by decide,
    (showBool_chars _).2.1, by decide, (toString_int_chars _).2, by decide,
    (showBool_chars _).2.1, by decide, (toString_int_chars _).2⟩

theorem getlines_saveEmployees (showPay : Rat → String) (stod : String → Option Rat)
    (l : List employee) (h : ∀ e ∈ l, loadable showPay stod e) :
    getlines [] (saveEmployees showPay l).toList = l.map (employeeLineChars showPay) := by
  induction l with
  | nil => rfl
  | cons e es ih =>
    rw [saveEmployees_toList,
      getlines_line [] _ (employeeLineChars_no_newline showPay stod e
        (h e (List.mem_cons_self _ _))),
      ih (fun x hx => h x (List.mem_cons_of_mem _ hx))]
    simp

theorem loadLines_map (showPay : Rat → String) (stod : String → Option Rat)
    (l acc : List employee) (h : ∀ e ∈ l, loadable showPay stod e) :
    loadLines stod (l.map (employeeLineChars showPay)) acc = some (acc ++ l) := by
  induction l generalizing acc with
  | nil => simp [loadLines]
  | cons e es ih =>
    simp only [List.map_cons, loadLines,
      loadLine_employeeLine showPay stod e (h e (List.mem_cons_self _ _))]
    rw [ih _ (fun x hx => h x (List.mem_cons_of_mem _ hx))]
    simp

/-- C13 as stated fails: the store with the one record named `A|7` (id
2000001, pay 15, associate) is saved as the line `A|7|2000001|15|0|0|0|0`, and
loading that text gives one record with name `A`, id 7, pay 2000001 and
`isManager` true, not the record that was saved. -/
theorem C13_round_trip_counterexample :
    saveEmployees toString [⟨"A|7", 2000001, 15, false, 0, false, 0⟩] =
      "A|7|2000001|15|0|0|0|0\n" ∧
    loadEmployees stodWhole (saveEmployees toString [⟨"A|7", 2000001, 15, false, 0, false, 0⟩]) =
      some [⟨"A", 7, 2000001, true, 0, false, 0⟩] ∧
    loadEmployees stodWhole (saveEmployees toString [⟨"A|7", 2000001, 15, false, 0, false, 0⟩]) ≠
      some [⟨"A|7", 2000001, 15, false, 0, false, 0⟩] := by
  refine ⟨by decide, by decide, by decide⟩

/-- C13, amended: round trip of the employee store.  For every list of records
whose names hold no separator `|` and no line break, whose pay is read back by
`stod` from the text written for it (a text without `|` and line break), and
whose `int` members and line lengths are within the machine limits,
`loadEmployees` applied to the text `saveEmployees` writes returns the same
list: the same records, in the same order, each with identical name, id, pay,
`isManager`, `managerPin`, `masterStatus` and `timeStatus`. -/
theorem C13_round_trip (showPay : Rat → String) (stod : String → Option Rat)
    (l : List employee) (h : ∀ e ∈ l, loadable showPay stod e) :
    loadEmployees stod (saveEmployees showPay l) = some l := by
  unfold loadEmployees
  rw [getlines_saveEmployees showPay stod l h, loadLines_map showPay stod l [] h]
  simp

/-- Witness of C13 on the example store, whose pay values are whole numbers:
every record is loadable, and loading the saved text gives the store back. -/
theorem C13_round_trip_witness :
    (∀ e ∈ exampleStore, loadable toString stodWhole e) ∧
    saveEmployees toString [exampleSam, exampleMorgan] =
      "Sam|3000001|30|1|1234|1|1\nMorgan|3000002|25|1|5678|0|1\n" ∧
    loadEmployees stodWhole (saveEmployees toString exampleStore) = some exampleStore :=
  ⟨by decide, by decide, C13_round_trip toString stodWhole exampleStore (by decide)⟩

/-! ## Searching the separator `--` of the ledger -/

theorem startsWith_dashes_cons (x : Char) (l : List Char) :
    startsWith ['-', '-'] (x :: l) = (x == '-' && l.head? == some '-') := by
  cases l with
  | nil => simp [startsWith]
  | cons y r =>
    simp only [startsWith, List.head?_cons, Bool.and_true]
    by_cases hx : x = '-'
    · by_cases hy : y = '-'
      · simp [hx, hy]
      · have : ('-' == y) = false := by simpa using fun h => hy h.symm
        simp [hx, hy, this]
    · have : ('-' == x) = false := by simpa using fun h => hx h.symm
      simp [hx, this]

theorem head?_append_dash (xs r : List Char) :
    (xs ++ '-' :: r).head? = (xs ++ ['-']).head? := by
  cases xs <;> rfl

/-- After a field that is free of the separator, the separator is found right
at the end of the field. -/
theorem findFrom_dashes {a : List Char} (r : List Char) (i : Nat) (h : dashFree a) :
    findFrom ['-', '-'] (a ++ '-' :: '-' :: r) i = i + a.length := by
  induction a generalizing i with
  | nil => simp [findFrom, startsWith]
  | cons x xs ih =>
    unfold dashFree at h
    simp only [List.cons_append, occurs, Bool.or_eq_false_iff] at h
    obtain ⟨h1, h2⟩ := h
    have h3 : startsWith ['-', '-'] (x :: (xs ++ '-' :: '-' :: r)) = false := by
      rw [startsWith_dashes_cons, head?_append_dash, ← startsWith_dashes_cons]
      exact h1
    simp only [List.cons_append, findFrom, List.append_eq, h3]
    rw [if_neg (by simp), ih _ h2]
    simp only [List.length_cons]
    omega

theorem dashFree_digits {ds : List Char} (h : ∀ c ∈ ds, c.isDigit = true) : dashFree ds := by
  unfold dashFree
  induction ds with
  | nil => decide
  | cons x xs ih =>
    have hx : x ≠ '-' := (isDigit_facts (h x (List.mem_cons_self _ _))).2.1
    simp only [List.cons_append, occurs, Bool.or_eq_false_iff]
    refine ⟨?_, ih (fun c hc => h c (List.mem_cons_of_mem _ hc))⟩
    rw [startsWith_dashes_cons]
    simp [hx]

/-- The text of an `int` is free of the separator `--`. -/
theorem dashFree_toString (n : Int) : dashFree (toString n).toList := by
  rw [toString_int_toList]
  by_cases hn : n < 0
  · rw [if_pos hn]
    obtain ⟨hne, hall, -⟩ := toDigits_spec n.natAbs
    have hd := dashFree_digits hall
    unfold dashFree at hd ⊢
    simp only [List.cons_append, occurs, Bool.or_eq_false_iff]
    refine ⟨?_, hd⟩
    rw [startsWith_dashes_cons]
    cases hds : Nat.toDigits 10 n.natAbs with
    | nil => exact absurd hds hne
    | cons d ds =>
      have hdd : d ≠ '-' := (isDigit_facts (hall d (by rw [hds]; exact List.mem_cons_self _ _))).2.1
      simp [hdd]
  · rw [if_neg hn]
    exact dashFree_digits (toDigits_spec _).2.1

theorem drop_after_two {s a r : List Char} {c d : Char} {pos : Nat}
    (hd : s.drop pos = a ++ c :: d :: r) : s.drop (pos + a.length + 2) = r := by
  have h1 : s.drop (pos + a.length + 1) = d :: r := drop_after hd
  have h2 : s.drop (pos + a.length + 1 + 1) = (s.drop (pos + a.length + 1)).drop 1 := by
    rw [List.drop_drop]
  have h3 : pos + a.length + 2 = pos + a.length + 1 + 1 := rfl
  rw [h3, h2, h1]
  rfl

theorem drop_length_bound_two {s a r : List Char} {c d : Char} {pos : Nat}
    (hd : s.drop pos = a ++ c :: d :: r) : pos + a.length + 2 + r.length = s.length := by
  have h := congrArg List.length hd
  simp only [List.length_drop, List.length_append, List.length_cons] at h
  omega

/-- One field of a ledger line that ends with `--`, starting at `pos`: the
search finds its end, `substr` cuts it out, and the rest of the line
follows. -/
theorem dash_step {s a r : List Char} {pos : Nat}
    (hd : s.drop pos = a ++ '-' :: '-' :: r) (h : dashFree a) (hlen : s.length < npos) :
    find s ['-', '-'] pos = pos + a.length ∧
    sizeAdd (pos + a.length) 2 = pos + a.length + 2 ∧
    pos + a.length ≠ npos ∧
    substr s pos (sizeSub (pos + a.length) pos) = some a ∧
    s.drop (pos + a.length + 2) = r ∧
    substr s (pos + a.length + 2) npos = some r := by
  have hb := drop_length_bound_two hd
  unfold npos at hlen
  have hd2 : s.drop pos = a ++ ('-' :: '-' :: r) := hd
  refine ⟨?_, sizeAdd_small _ _ (by omega), by unfold npos; omega, ?_, drop_after_two hd, ?_⟩
  · unfold find
    rw [hd, findFrom_dashes r pos h]
  · rw [sizeSub_small _ _ (by omega) (by omega)]
    have : pos + a.length - pos = a.length := by omega
    rw [this]
    exact substr_of_drop hd2 (by omega)
  · exact substr_rest (drop_after_two hd) (by omega) (by unfold npos; omega)

/-! ## The last punch of an employee -/

/-- The first field of a ledger line, which starts the line. -/
theorem first_dash_step {s a r : List Char}
    (hd : s = a ++ '-' :: '-' :: r) (h : dashFree a) (hlen : s.length < npos) :
    find s ['-', '-'] 0 = a.length ∧ sizeAdd a.length 2 = a.length + 2 ∧
    a.length ≠ npos ∧ substr s 0 a.length = some a ∧ s.drop (a.length + 2) = r := by
  have hd0 : s.drop 0 = a ++ '-' :: '-' :: r := by rw [List.drop_zero, hd]
  obtain ⟨hf, ha, hne, -, hdr, -⟩ := dash_step hd0 h hlen
  rw [Nat.zero_add] at hf ha hne hdr
  have hd2 : s.drop 0 = a ++ ('-' :: '-' :: r) := hd0
  exact ⟨hf, ha, hne, substr_of_drop hd2 (Nat.zero_le _), hdr⟩

theorem punchLine_toList (p : punch) :
    (punchLine p).toList = punchLineChars p ++ '\n' :: [] := by
  unfold punchLine punchLineChars
  simp only [String.toList, String.data_append, List.append_assoc]
  simp

/-- The loop body of `getLastPunch` on the line of a punch: the punch replaces
`last` when its id is the one asked for. -/
theorem lastPunchLine_punchLine (employeeID : Int) (p last : punch) (h : punchOk p) :
    lastPunchLine employeeID (punchLineChars p) last =
      some (if p.employeeID = employeeID then p else last) := by
  obtain ⟨hid, hname, htype, -, -, -, hlen⟩ := h
  have hl : (punchLineChars p).length < npos := by
    have h1 := congrArg List.length (punchLine_toList p)
    simp only [List.length_append, List.length_cons, List.length_nil] at h1
    have h2 : (punchLine p).toList.length = (punchLine p).length := rfl
    omega
  obtain ⟨p1, a1, n1, t1, d1⟩ := first_dash_step (s := punchLineChars p) rfl
    (dashFree_toString p.employeeID) hl
  obtain ⟨p2, a2, n2, t2, d2, -⟩ := dash_step d1 hname hl
  obtain ⟨p3, a3, n3, t3, -, t4⟩ := dash_step d2 htype hl
  unfold lastPunchLine
  simp only [p1, a1, p2, a2, p3, a3, n1, n2, n3, or_self, if_false, t1, t2, t3, t4,
    Option.some_bind, stoi_toString _ hid.1 hid.2]
  by_cases hEq : p.employeeID = employeeID
  · simp only [hEq, if_true]
    cases p
    simp_all
  · simp only [hEq, if_false]

theorem punchLineChars_no_newline (p : punch) (h : punchOk p) : '\n' ∉ punchLineChars p := by
  obtain ⟨-, -, -, hn, ht, hs, -⟩ := h
  unfold punchLineChars
  simp only [List.mem_append, List.mem_cons, not_or]
  exact ⟨(toString_int_chars _).2, by decide, by decide, hn, by decide, by decide, ht,
    by decide, by decide, hs⟩

theorem ledger_toList (ps : List punch) (init : String) :
    (ps.foldl (fun ledger p => savePunch p ledger) init).toList =
      init.toList ++ ps.foldr (fun p acc => punchLineChars p ++ '\n' :: acc) [] := by
  induction ps generalizing init with
  | nil => simp
  | cons p ps ih =>
    simp only [List.foldl_cons, List.foldr_cons]
    rw [ih]
    have : (savePunch p init).toList = init.toList ++ (punchLine p).toList := by
      simp only [savePunch, String.toList, String.data_append]
    rw [this, punchLine_toList]
    simp

theorem getlines_ledger (ps : List punch) (h : ∀ p ∈ ps, punchOk p) :
    getlines [] (ps.foldr (fun p acc => punchLineChars p ++ '\n' :: acc) []) =
      ps.map punchLineChars := by
  induction ps with
  | nil => rfl
  | cons p ps ih =>
    simp only [List.foldr_cons, List.map_cons]
    rw [getlines_line [] _ (punchLineChars_no_newline p (h p (List.mem_cons_self _ _))),
      ih (fun x hx => h x (List.mem_cons_of_mem _ hx))]
    simp

theorem lastPunchLines_map (employeeID : Int) (ps : List punch) (last : punch)
    (h : ∀ p ∈ ps, punchOk p) :
    lastPunchLines employeeID (ps.map punchLineChars) last =
      some (ps.foldl (fun last p => if p.employeeID = employeeID then p else last) last) := by
  induction ps generalizing last with
  | nil => rfl
  | cons p ps ih =>
    simp only [List.map_cons, lastPunchLines,
      lastPunchLine_punchLine employeeID p last (h p (List.mem_cons_self _ _)), List.foldl_cons]
    exact ih _ (fun x hx => h x (List.mem_cons_of_mem _ hx))

theorem foldl_no_match (employeeID : Int) (ps : List punch) (last : punch)
    (h : ∀ p ∈ ps, p.employeeID ≠ employeeID) :
    ps.foldl (fun last p => if p.employeeID = employeeID then p else last) last = last := by
  induction ps generalizing last with
  | nil => rfl
  | cons p ps ih =>
    simp only [List.foldl_cons, h p (List.mem_cons_self _ _), if_false]
    exact ih _ (fun x hx => h x (List.mem_cons_of_mem _ hx))

/-- The punch `lastWithId` gives is the last one of the list with the id, and
`noPunch` when no punch has the id. -/
theorem lastWithId_spec (employeeID : Int) (ps : List punch) :
    ((∀ p ∈ ps, p.employeeID ≠ employeeID) → lastWithId employeeID ps = noPunch) ∧
    (∀ pre p post, ps = pre ++ p :: post → p.employeeID = employeeID →
      (∀ q ∈ post, q.employeeID ≠ employeeID) → lastWithId employeeID ps = p) := by
  constructor
  · intro h
    exact foldl_no_match employeeID ps noPunch h
  · intro pre p post hps hp hpost
    unfold lastWithId
    rw [hps, List.foldl_append, List.foldl_cons, if_pos hp]
    exact foldl_no_match employeeID post p hpost

/-- C15 as stated fails: the ledger holds the one line `savePunch` writes for
the punch of employee 2000001 named `Mary--Ann` (kind `CLOCK_IN`), and
`getLastPunch(2000001)` returns name `Mary`, type `Ann` and a timestamp that
starts with `CLOCK_IN--`, not the name, type and timestamp of that line. -/
theorem C15_last_punch_counterexample :
    ledgerOf [⟨2000001, "Mary--Ann", "CLOCK_IN", "10/30/26 09:00:00"⟩] =
      "2000001--Mary--Ann--CLOCK_IN--10/30/26 09:00:00\n" ∧
    getLastPunch (ledgerOf [⟨2000001, "Mary--Ann", "CLOCK_IN", "10/30/26 09:00:00"⟩]) 2000001 =
      some ⟨2000001, "Mary", "Ann", "CLOCK_IN--10/30/26 09:00:00"⟩ ∧
    getLastPunch (ledgerOf [⟨2000001, "Mary--Ann", "CLOCK_IN", "10/30/26 09:00:00"⟩]) 2000001 ≠
      some ⟨2000001, "Mary--Ann", "CLOCK_IN", "10/30/26 09:00:00"⟩ := by
  refine ⟨by decide, by decide, by decide⟩

/-- C15, amended: last punch query.  For every ledger written by `savePunch`
for a sequence of punches whose name and type hold no `--` and do not end in
`-`, whose name, type and timestamp hold no line break (and whose id and line
length are within the machine limits), and for every id, `getLastPunch(id)`
returns the employee id, name, type and timestamp of the last punch in ledger
order whose employee id is `id`, and the result `noPunch` with employee id 0
when no punch has that id.  The function returns a punch and nothing else. -/
theorem C15_last_punch (ps : List punch) (h : ∀ p ∈ ps, punchOk p) (employeeID : Int) :
    getLastPunch (ledgerOf ps) employeeID = some (lastWithId employeeID ps) ∧
    ((∀ p ∈ ps, p.employeeID ≠ employeeID) → lastWithId employeeID ps = noPunch) ∧
    (∀ pre p post, ps = pre ++ p :: post → p.employeeID = employeeID →
      (∀ q ∈ post, q.employeeID ≠ employeeID) → lastWithId employeeID ps = p) ∧
    noPunch.employeeID = 0 := by
  refine ⟨?_, (lastWithId_spec employeeID ps).1, (lastWithId_spec employeeID ps).2, rfl⟩
  unfold getLastPunch ledgerOf
  rw [ledger_toList]
  have h0 : ("" : String).toList = [] := rfl
  rw [h0, List.nil_append, getlines_ledger ps h]
  exact lastPunchLines_map employeeID ps _ h

/-- Witness of C15: in the ledger of Avery's clock-in, Blake's clock-out and
Avery's meal start, the last punch of Avery (2000001) is the meal start, and
Casey (2000003) has no punch. -/
theorem C15_last_punch_witness :
    (∀ p ∈ ([⟨2000001, "Avery", "CLOCK_IN", "10/30/26 09:00:00"⟩,
        ⟨2000002, "Blake", "CLOCK_OUT", "10/30/26 09:30:00"⟩,
        ⟨2000001, "Avery", "START_MEAL", "10/30/26 12:00:00"⟩] : List punch), punchOk p) ∧
    getLastPunch (ledgerOf [⟨2000001, "Avery", "CLOCK_IN", "10/30/26 09:00:00"⟩,
        ⟨2000002, "Blake", "CLOCK_OUT", "10/30/26 09:30:00"⟩,
        ⟨2000001, "Avery", "START_MEAL", "10/30/26 12:00:00"⟩]) 2000001 =
      some ⟨2000001, "Avery", "START_MEAL", "10/30/26 12:00:00"⟩ ∧
    getLastPunch (ledgerOf [⟨2000001, "Avery", "CLOCK_IN", "10/30/26 09:00:00"⟩,
        ⟨2000002, "Blake", "CLOCK_OUT", "10/30/26 09:30:00"⟩,
        ⟨2000001, "Avery", "START_MEAL", "10/30/26 12:00:00"⟩]) 2000003 = some noPunch :=
  ⟨by decide,
   (C15_last_punch _ (by decide) 2000001).1.trans (by decide),
   (C15_last_punch _ (by decide) 2000003).1.trans (by decide)⟩

/-! ## The actor position during an edit session -/

/-- C16, evaluated where it fails.  Morgan (manager without master access,
id 3000002) logs in; `setIndex` gives position 1 of the store Avery, Morgan,
Sam.  Inside `editInfo` he removes the associate Avery: the vector becomes
Morgan, Sam, while `employeeidx` stays 1, which now holds Sam (master access,
id 3000001) and no longer the record of the logged-in id, whose position is
now 0.  The next permission checks read Sam's flags: Morgan's request to grant
master access to his own id passes the self check and the master check, and the
session ends with Morgan having master access.  In the store Avery, Morgan the
same removal leaves `employeeidx` beyond the end of the vector. -/
theorem C16_stale_actor_index :
    setIndex 3000002 exampleSessionStore = 1 ∧
    exampleSessionStore[1]? = some exampleMorgan ∧
    removeEmployee toString ⟨exampleSessionStore, "", ""⟩ 1 [some 2000001] =
      some (saved toString ⟨exampleSessionStore, "", ""⟩ [exampleMorgan, exampleSam]) ∧
    [exampleMorgan, exampleSam][1]? = some exampleSam ∧
    exampleSam.employeeID ≠ 3000002 ∧
    setIndex 3000002 [exampleMorgan, exampleSam] = 0 ∧
    (editInfo toString ⟨exampleSessionStore, "", ""⟩ 1
        [EditStep.remove [some 2000001], EditStep.status (some 3000002) '3' [],
          EditStep.leave]).map (fun w => w.employees) =
      some [⟨"Morgan", 3000002, 25, true, 5678, true, 1⟩, exampleSam] ∧
    (removeEmployee toString ⟨[exampleAvery, exampleMorgan], "", ""⟩ 1 [some 2000001]).map
        (fun w => w.employees[1]?) = some none ∧
    editInfo toString ⟨[exampleAvery, exampleMorgan], "", ""⟩ 1
        [EditStep.remove [some 2000001], EditStep.leave] = none := by
  refine ⟨by decide, by decide, by decide, by decide, by decide, by decide, by decide,
    by decide, by decide⟩

/-! ## The lines `loadEmployees` does skip -/

theorem count_split {c : Char} {l : List Char} {k : Nat} (h : l.count c = k + 1) :
    ∃ a r, l = a ++ c :: r ∧ c ∉ a ∧ r.count c = k := by
  induction l with
  | nil => simp at h
  | cons x xs ih =>
    by_cases hx : x = c
    · subst hx
      refine ⟨[], xs, rfl, by simp, ?_⟩
      simpa using h
    · have hxs : xs.count c = k + 1 := by
        rw [List.count_cons] at h
        simpa [hx] using h
      obtain ⟨a, r, rfl, ha, hr⟩ := ih hxs
      refine ⟨x :: a, r, rfl, ?_, hr⟩
      intro hm
      rcases List.mem_cons.mp hm with h1 | h1
      · exact hx h1.symm
      · exact ha h1

theorem find_single_absent_of_drop {s a : List Char} {c : Char} {pos : Nat}
    (hd : s.drop pos = a) (h : c ∉ a) : find s [c] pos = npos := by
  unfold find
  rw [hd, findFrom_single_absent pos h]

theorem sizeAdd_npos_one : sizeAdd npos 1 = 0 := by decide

/-- What holds of C14: a line shorter than `npos` with no, one, two or five
separators `|` is skipped by the loop body of `loadEmployees`. -/
theorem loadLine_skips (stod : String → Option Rat) (line : List Char)
    (hlen : line.length < npos)
    (hc : line.count '|' = 0 ∨ line.count '|' = 1 ∨ line.count '|' = 2 ∨ line.count '|' = 5) :
    loadLine stod line = some none := by
  rcases hc with hc | hc | hc | hc
  · have habs : '|' ∉ line := List.count_eq_zero.mp hc
    have p0 : find line ['|'] 0 = npos :=
      find_single_absent_of_drop (List.drop_zero line) habs
    unfold loadLine
    simp only [p0, sizeAdd_npos_one, if_true]
  · obtain ⟨a, r, hline, ha, hr⟩ := count_split hc
    have hra : '|' ∉ r := List.count_eq_zero.mp hr
    obtain ⟨p0, a0, -, d1⟩ := first_field_step hline ha hlen
    have p1 := find_single_absent_of_drop d1 hra
    unfold loadLine
    simp only [p0, a0, p1, sizeAdd_npos_one, if_true]
  · obtain ⟨a, r, hline, ha, hr⟩ := count_split hc
    obtain ⟨b, r2, hr2, hb, hr3⟩ := count_split hr
    have hra : '|' ∉ r2 := List.count_eq_zero.mp hr3
    obtain ⟨p0, a0, -, d1⟩ := first_field_step hline ha hlen
    rw [hr2] at d1
    obtain ⟨p1, a1, -, -, d2⟩ := field_step d1 hb hlen
    have p2 := find_single_absent_of_drop d2 hra
    unfold loadLine
    simp only [p0, a0, p1, a1, p2, sizeAdd_npos_one, if_true]
  · obtain ⟨f0, r0, hline, h0, hr0⟩ := count_split hc
    obtain ⟨f1, r1, hr1, h1, hc1⟩ := count_split hr0
    obtain ⟨f2, r2, hr2, h2, hc2⟩ := count_split hc1
    obtain ⟨f3, r3, hr3, h3, hc3⟩ := count_split hc2
    obtain ⟨f4, r4, hr4, h4, hc4⟩ := count_split hc3
    have hra : '|' ∉ r4 := List.count_eq_zero.mp hc4
    obtain ⟨p0, a0, -, d1⟩ := first_field_step hline h0 hlen
    rw [hr1] at d1
    obtain ⟨p1, a1, -, -, d2⟩ := field_step d1 h1 hlen
    rw [hr2] at d2
    obtain ⟨p2, a2, -, -, d3⟩ := field_step d2 h2 hlen
    rw [hr3] at d3
    obtain ⟨p3, a3, -, -, d4⟩ := field_step d3 h3 hlen
    rw [hr4] at d4
    obtain ⟨p4, a4, -, -, d5⟩ := field_step d4 h4 hlen
    have p5 := find_single_absent_of_drop d5 hra
    unfold loadLine
    simp only [p0, a0, p1, a1, p2, a2, p3, a3, p4, a4, p5, if_true]

end TimeClock
